import Mathlib

set_option maxHeartbeats 1000000

namespace BML

/-- A BML node: a name, a value, and an ordered list of children.
Translated from `Node` in `bml.go` (strings modelled as `List Char`). -/
inductive Node where
  | mk (name : List Char) (value : List Char) (children : List Node)

mutual

/-- Decidable equality on nodes. -/
def Node.decEq : (a b : Node) → Decidable (a = b)
  | .mk n1 v1 c1, .mk n2 v2 c2 =>
    if h1 : n1 = n2 then
      if h2 : v1 = v2 then
        match Node.decEqList c1 c2 with
        | isTrue h3 => isTrue (by rw [h1, h2, h3])
        | isFalse h3 => isFalse (by intro h; injection h; contradiction)
      else isFalse (by intro h; injection h; contradiction)
    else isFalse (by intro h; injection h; contradiction)

/-- Decidable equality on lists of nodes. -/
def Node.decEqList : (a b : List Node) → Decidable (a = b)
  | [], [] => isTrue rfl
  | [], _ :: _ => isFalse (by intro h; cases h)
  | _ :: _, [] => isFalse (by intro h; cases h)
  | a :: as, b :: bs =>
    match Node.decEq a b, Node.decEqList as bs with
    | isTrue h1, isTrue h2 => isTrue (by rw [h1, h2])
    | isFalse h1, _ => isFalse (by intro h; injection h; contradiction)
    | _, isFalse h2 => isFalse (by intro h; injection h; contradiction)

end

instance : DecidableEq Node := Node.decEq

/-- The node's name. -/
def Node.name : Node → List Char
  | .mk n _ _ => n

/-- The node's value. -/
def Node.value : Node → List Char
  | .mk _ v _ => v

/-- The node's children. -/
def Node.children : Node → List Node
  | .mk _ _ c => c

/-- Replace the node's value. -/
def Node.withValue : Node → List Char → Node
  | .mk n _ c, v => .mk n v c

/-- Append a child at the end of the children list. -/
def Node.addChild : Node → Node → Node
  | .mk n v c, child => .mk n v (c ++ [child])

/-- Replace the node's children. -/
def Node.withChildren : Node → List Node → Node
  | .mk n v _, c => .mk n v c

/-! ### List-of-characters utilities

Go strings are modelled as `List Char` (the sources only rely on ASCII
content, where Go's byte indexing and rune iteration coincide). -/

/-- `strings.Split(s, sep)` for a one-character separator: splitting the
empty list yields `[[]]`, and every separator occurrence starts a new piece. -/
def splitOnChar (sep : Char) : List Char → List (List Char)
  | [] => [[]]
  | c :: rest =>
    if c = sep then [] :: splitOnChar sep rest
    else
      match splitOnChar sep rest with
      | [] => [[c]]
      | piece :: pieces => (c :: piece) :: pieces

/-- Whitespace recognized by Go's `strings.TrimSpace` for ASCII input
(space, tab, newline, vertical tab, form feed, carriage return).
Non-ASCII Unicode spaces are outside the model. -/
def isGoSpace (c : Char) : Bool :=
  c == ' ' || c == '\t' || c == '\n' || c == '\x0B' || c == '\x0C' || c == '\r'

/-- Modelled from Go `strings.TrimSpace`: drop leading and trailing whitespace. -/
def trimSpace (s : List Char) : List Char :=
  ((s.dropWhile isGoSpace).reverse.dropWhile isGoSpace).reverse

/-- Modelled from Go `strings.TrimRight(s, " ")`: drop trailing spaces. -/
def rtrimSpaces (s : List Char) : List Char :=
  (s.reverse.dropWhile (· == ' ')).reverse

/-- Modelled from Go `strings.ReplaceAll(s, "\r\n", "\n")`: leftmost-first
replacement of CRLF pairs. -/
def replaceCRLF : List Char → List Char
  | '\r' :: '\n' :: rest => '\n' :: replaceCRLF rest
  | c :: rest => c :: replaceCRLF rest
  | [] => []

/-! ### Line normalization (`normalizeLines`, `readDepth`, `isValidNameChar`) -/

/-- `readDepth` from `bml.go`: count the leading whitespace characters
(tabs or spaces). -/
def readDepth (line : List Char) : Nat :=
  (line.takeWhile (fun c => c == '\t' || c == ' ')).length

/-- `isValidNameChar` from `bml.go`: A-Z, a-z, 0-9, `-`, `.`. -/
def isValidNameChar (c : Char) : Bool :=
  decide (('A' ≤ c ∧ c ≤ 'Z') ∨ ('a' ≤ c ∧ c ≤ 'z') ∨ ('0' ≤ c ∧ c ≤ '9') ∨
    c = '-' ∨ c = '.')

/-- Does the line content (after its indentation) start with `//`? -/
def startsWithSlashSlash : List Char → Bool
  | '/' :: '/' :: _ => true
  | _ => false

/-- `normalizeLines` from `bml.go`: unify line endings, split into lines,
drop whitespace-only lines and full-line comments. -/
def normalizeLines (input : List Char) : List (List Char) :=
  let input1 := replaceCRLF input
  let input2 := input1.map (fun c => if c == '\r' then '\n' else c)
  let rawLines := splitOnChar '\n' input2
  rawLines.filter (fun line =>
    !(trimSpace line).isEmpty && !startsWithSlashSlash (line.drop (readDepth line)))

/-! ### Errors -/

/-- Parse errors of `bml.go` (the Go code uses `error` values; the message
text is replaced by a constructor carrying the offending line).
`outOfFuel` is an artifact of the fuel-based embedding of the recursive
descent; `Parse` supplies enough fuel that it never occurs. -/
inductive Err where
  | unexpectedEndOfInput
  | invalidIndentation (line : List Char)
  | invalidNodeName (line : List Char)
  | unclosedQuote (line : List Char)
  | outOfFuel
deriving DecidableEq

/-! ### Value micro-parser (`parseValue`) -/

/-- The scan of the colon-value loop in `parseValue`: the number of
characters consumed from the remainder of the line before an inline `//`
comment marker (both slashes must be present, mirroring the
`end+1 < len(line)` guard) or the end of the line. -/
def commentScanLen : List Char → Nat
  | '/' :: '/' :: _ => 0
  | _ :: rest => commentScanLen rest + 1
  | [] => 0

/-- `parseValue` from `bml.go`: parse a value starting at `pos` in `line`.
Returns the value, the new position, and (instrumentation not present in
the source, used only to state the round-trip hypothesis) whether the
`=`-syntax branch was taken. -/
def parseValue (line : List Char) (pos : Nat) : Except Err (List Char × Nat × Bool) :=
  if pos ≥ line.length then .ok ([], pos, false)
  else
    match line.get? pos with
    | some ':' =>
      -- Colon format: Name: value
      let pos1 := pos + 1
      let pos2 := if line.get? pos1 = some ' ' then pos1 + 1 else pos1
      let t := line.drop pos2
      let k := commentScanLen t
      .ok (rtrimSpaces (t.take k), pos2 + k, false)
    | some '=' =>
      let pos1 := pos + 1
      if pos1 ≥ line.length then .ok ([], pos1, true)
      else if line.get? pos1 = some '"' then
        -- Quoted format: Name="value"
        let pos2 := pos1 + 1
        let t := line.drop pos2
        match t.findIdx? (· == '"') with
        | none => .error (.unclosedQuote line)
        | some k => .ok (t.take k, pos2 + k + 1, true)
      else
        -- Unquoted format: Name=value (no spaces allowed)
        let t := line.drop pos1
        let v := t.takeWhile (fun c => !(c == ' ' || c == '"'))
        .ok (v, pos1 + v.length, true)
    | _ => .ok ([], pos, false)

/-! ### Node parser (`parseNode` and its loops)

The Go functions advance a mutable index through the line list and recurse;
here the remaining lines are passed explicitly and a fuel argument makes
the recursion structural. Each instrumentation `Bool` reports whether the
parse used an inline attribute or an `=`-syntax value (absent from the
source, needed only to state the round-trip claim's hypothesis). -/

/-- The inline-attribute loop of `parseNode` in `bml.go`: repeatedly skip
spaces, stop at end of line, an inline comment, or a non-name character,
otherwise read an attribute name and value and append a child. -/
def parseAttrs : Nat → List Char → Nat → Node → Except Err (Node × Bool)
  | 0, _, _, _ => .error .outOfFuel
  | fuel + 1, line, pos0, node =>
    let pos := pos0 + ((line.drop pos0).takeWhile (· == ' ')).length
    if pos ≥ line.length then .ok (node, false)
    else if pos + 1 < line.length ∧ line.get? pos = some '/' ∧ line.get? (pos + 1) = some '/' then
      .ok (node, false)
    else
      let nameChars := (line.drop pos).takeWhile isValidNameChar
      if nameChars.length = 0 then .ok (node, false)
      else
        let pos2 := pos + nameChars.length
        match (if pos2 < line.length then parseValue line pos2 else .ok ([], pos2, false)) with
        | .error e => .error e
        | .ok (v, pos3, _) =>
          match parseAttrs fuel line pos3 (node.addChild (Node.mk nameChars v [])) with
          | .error e => .error e
          | .ok (node2, _) => .ok (node2, true)

mutual

/-- `parseNode` from `bml.go`: parse a single node and its children from
the remaining lines. Returns the node, the unconsumed lines, and the
instrumentation flag. -/
def parseNode : Nat → List (List Char) → Int → Except Err (Node × List (List Char) × Bool)
  | _, [], _ => .error .unexpectedEndOfInput
  | 0, _ :: _, _ => .error .outOfFuel
  | fuel + 1, line :: rest, parentDepth =>
    let depth := readDepth line
    if (depth : Int) ≤ parentDepth ∧ 0 ≤ parentDepth then
      .error (.invalidIndentation line)
    else
      let nameChars := (line.drop depth).takeWhile isValidNameChar
      if nameChars.length = 0 then .error (.invalidNodeName line)
      else
        let pos := depth + nameChars.length
        match (if pos < line.length then parseValue line pos else .ok ([], pos, false)) with
        | .error e => .error e
        | .ok (value, pos2, eqUsed) =>
          match parseAttrs (line.length + 1) line pos2 (Node.mk nameChars value []) with
          | .error e => .error e
          | .ok (node1, attrUsed) =>
            match parseChildren fuel rest depth node1 with
            | .error e => .error e
            | .ok (node2, rest2, childUsed) =>
              .ok (node2, rest2, eqUsed || attrUsed || childUsed)

/-- The child-consumption loop of `parseNode` in `bml.go`: while deeper
lines remain, either absorb a `:`-continuation line into the value or
recursively parse a child node. -/
def parseChildren : Nat → List (List Char) → Nat → Node → Except Err (Node × List (List Char) × Bool)
  | _, [], _, node => .ok (node, [], false)
  | 0, _ :: _, _, _ => .error .outOfFuel
  | fuel + 1, line :: rest, depth, node =>
    let childDepth := readDepth line
    if childDepth ≤ depth then .ok (node, line :: rest, false)
    else
      let stripped := line.dropWhile (fun c => c == ' ' || c == '\t')
      if stripped.head? = some ':' then
        let afterColon := stripped.tail
        let cont := if afterColon.head? = some ' ' then afterColon.tail else afterColon
        let newValue := (if node.value ≠ [] then node.value ++ ['\n'] else node.value) ++ cont
        parseChildren fuel rest depth (node.withValue newValue)
      else
        match parseNode fuel (line :: rest) (depth : Int) with
        | .error e => .error e
        | .ok (child, rest2, cUsed) =>
          match parseChildren fuel rest2 depth (node.addChild child) with
          | .error e => .error e
          | .ok (node2, rest3, used2) => .ok (node2, rest3, cUsed || used2)

end

/-- The top-level loop of `Parse` in `bml.go`: parse nodes with
`parentDepth = -1` until the lines are exhausted. -/
def parseTop : Nat → List (List Char) → Except Err (List Node × Bool)
  | _, [] => .ok ([], false)
  | 0, _ :: _ => .error .outOfFuel
  | fuel + 1, line :: rest =>
    match parseNode fuel (line :: rest) (-1) with
    | .error e => .error e
    | .ok (node, rest2, used) =>
      match parseTop fuel rest2 with
      | .error e => .error e
      | .ok (nodes, used2) => .ok (node :: nodes, used || used2)

/-- `Parse` from `bml.go`, instrumented: parse BML data into the synthetic
root node, together with the flag telling whether any inline attribute or
`=`-syntax value was encountered. The supplied fuel `2*n+2` exceeds the
parser's recursion depth on `n` lines. -/
def ParseI (data : List Char) : Except Err (Node × Bool) :=
  let lines := normalizeLines data
  if lines = [] then .ok (Node.mk [] [] [], false)
  else
    match parseTop (2 * lines.length + 2) lines with
    | .error e => .error e
    | .ok (children, used) => .ok (Node.mk [] [] children, used)

/-- `Parse` from `bml.go`: the instrumented parser with the flag dropped
(the `Document` wrapper is represented by its root node). -/
def Parse (data : List Char) : Except Err Node :=
  (ParseI data).map Prod.fst

/-! ### Tree model: path-addressed Get / Set / Remove -/

/-- The first child whose name equals `name` (the inner loop of `Get`). -/
def findChild (cs : List Node) (name : List Char) : Option Node :=
  cs.find? (fun c => c.name == name)

/-- The segment walk of `Get` in `bml.go`: skip empty segments, at each
step take the first child with the segment's name, fail to `none` if a
segment is unmatched. -/
def getParts : Node → List (List Char) → Option Node
  | n, [] => some n
  | n, part :: rest =>
    if part = [] then getParts n rest
    else
      match findChild n.children part with
      | some c => getParts c rest
      | none => none

/-- `Get` from `bml.go`: retrieve a descendant by `/`-separated path.
A `nil` result is modelled as `none`. -/
def Node.Get (n : Node) (path : List Char) : Option Node :=
  getParts n (splitOnChar '/' path)

/-- `Get` on a possibly-`nil` receiver (Go's nil-receiver check). -/
def Node.GetOpt : Option Node → List Char → Option Node
  | none, _ => none
  | some n, path => n.Get path

/-- Find the first child named `part`, apply `f` to it in place; if no
child matches, append `f` applied to a fresh node named `part` (the
find-or-create step of `Set` in `bml.go`). -/
def updateChild (part : List Char) (f : Node → Node) : List Node → List Node
  | [] => [f (Node.mk part [] [])]
  | c :: rest =>
    if c.name = part then f c :: rest
    else c :: updateChild part f rest

/-- The segment walk of `Set` in `bml.go`: skip empty segments; at the
last index assign the value to the found-or-created child; in between,
descend into the found-or-created child. A path whose last segment is
empty ends the walk without assigning the value, exactly as the Go loop
does. Go mutates the receiver in place; the model returns the updated
receiver instead. -/
def setParts (v : List Char) : Node → List (List Char) → Node
  | n, [] => n
  | n, [part] =>
    if part = [] then n
    else n.withChildren (updateChild part (fun c => c.withValue v) n.children)
  | n, part :: rest =>
    if part = [] then setParts v n rest
    else n.withChildren (updateChild part (fun c => setParts v c rest) n.children)

/-- `Set` from `bml.go`: set or create a node at the given path, creating
missing intermediate nodes. Returns the updated receiver (the Go method
mutates in place and returns the target node). -/
def Node.Set (n : Node) (path : List Char) (v : List Char) : Node :=
  setParts v n (splitOnChar '/' path)

/-- Remove the first child with the given name, preserving the order of
the remaining children (the final loop of `Remove` in `bml.go`). -/
def removeFirstChild : List Node → List Char → List Node × Bool
  | [], _ => ([], false)
  | c :: rest, target =>
    if c.name = target then (rest, true)
    else
      let (r, b) := removeFirstChild rest target
      (c :: r, b)

/-- Apply `f` to the first child named `part`, returning `none` when no
child matches (the navigation step of `Remove` in `bml.go`). -/
def mapFirstChild (part : List Char) (f : Node → Node × Bool) : List Node → Option (List Node × Bool)
  | [] => none
  | c :: tl =>
    if c.name = part then
      let (c2, b) := f c
      some (c2 :: tl, b)
    else (mapFirstChild part f tl).map (fun p => (c :: p.1, p.2))

/-- The segment walk of `Remove` in `bml.go`: navigate along all segments
but the last (skipping empty ones, returning `false` when a segment is
missing), then remove the first child matching the last segment. Go
mutates in place; the model returns the updated receiver with the flag. -/
def removeParts : Node → List (List Char) → Node × Bool
  | n, [] => (n, false)
  | n, [target] =>
    let (cs2, b) := removeFirstChild n.children target
    (n.withChildren cs2, b)
  | n, part :: rest =>
    if part = [] then removeParts n rest
    else
      match mapFirstChild part (fun c => removeParts c rest) n.children with
      | some (cs2, b) => (n.withChildren cs2, b)
      | none => (n, false)

/-- `Remove` from `bml.go`: remove the first child at the given path.
Returns the updated receiver and whether a removal occurred. -/
def Node.Remove (n : Node) (path : List Char) : Node × Bool :=
  removeParts n (splitOnChar '/' path)

/-! ### Typed accessors (`String`/`Bool`/`Int`/`Float`)

The Go methods take a possibly-`nil` receiver, modelled as `Option Node`. -/

/-- `String` from `bml.go`: the node's value trimmed of whitespace, or the
fallback if the node is `nil`. -/
def Node.String : Option Node → List Char → List Char
  | none, fallback => fallback
  | some n, _ => trimSpace n.value

/-- `Bool` from `bml.go`: `true`/`false` literals, or the fallback. -/
def Node.Bool : Option Node → Bool → Bool
  | none, fallback => fallback
  | some n, fallback =>
    let v := trimSpace n.value
    if v = "true".toList then true
    else if v = "false".toList then false
    else fallback

/-- Modelled from Go `strconv.Atoi` on a 64-bit platform: an optional
sign followed by one or more decimal digits, the whole string consumed,
with the mathematical value required to fit in a signed 64-bit integer. -/
def atoi? (s : List Char) : Option Int :=
  let digitsVal : List Char → Option Nat := fun ds =>
    if ds ≠ [] ∧ ds.all Char.isDigit then
      some (ds.foldl (fun a c => a * 10 + (c.toNat - 48)) 0)
    else none
  let signed : Option (Bool × List Char) :=
    match s with
    | '-' :: rest => some (true, rest)
    | '+' :: rest => some (false, rest)
    | _ => some (false, s)
  match signed with
  | some (neg, ds) =>
    match digitsVal ds with
    | some v =>
      if neg then
        if (v : Int) ≤ 2 ^ 63 then some (-(v : Int)) else none
      else
        if (v : Int) ≤ 2 ^ 63 - 1 then some (v : Int) else none
    | none => none
  | none => none

/-- `Int` from `bml.go`: `strconv.Atoi` of the trimmed value, or the
fallback on `nil` receiver or parse failure. -/
def Node.Int : Option Node → Int → Int
  | none, fallback => fallback
  | some n, fallback =>
    match atoi? (trimSpace n.value) with
    | some i => i
    | none => fallback

/-- Split at the first character satisfying `p`: the part before it and,
when it occurs, the part after it. -/
def splitAtCharWhen (p : Char → Bool) : List Char → List Char × Option (List Char)
  | [] => ([], none)
  | c :: rest =>
    if p c then ([], some rest)
    else
      let (a, b) := splitAtCharWhen p rest
      (c :: a, b)

/-- An optional leading sign: whether it is `-`, and the remainder. -/
def readSign : List Char → Bool × List Char
  | '-' :: rest => (true, rest)
  | '+' :: rest => (false, rest)
  | s => (false, s)

/-- The value of a nonempty all-digit string, `none` otherwise. -/
def decDigits? (ds : List Char) : Option Nat :=
  if ds ≠ [] ∧ ds.all Char.isDigit then
    some (ds.foldl (fun a c => a * 10 + (c.toNat - 48)) 0)
  else none

/-- Modelled from the decimal grammar of Go `strconv.ParseFloat`:
`[sign] digits [. digits] [e|E [sign] digits]` with at least one mantissa
digit, valued as an exact rational. The hexadecimal forms, `inf`/`nan`
literals, and the binary rounding and overflow behavior of `float64` are
outside the model. -/
def parseFloat? (s : List Char) : Option ℚ :=
  if s = [] then none
  else
    let (neg, s1) := readSign s
    let (mant, expPart) := splitAtCharWhen (fun c => c == 'e' || c == 'E') s1
    let mantVal : Option (Nat × Nat) :=
      let (ip, fpOpt) := splitAtCharWhen (· == '.') mant
      match fpOpt with
      | none =>
        match decDigits? ip with
        | some v => some (v, 0)
        | none => none
      | some fp =>
        if (ip ++ fp) ≠ [] ∧ ip.all Char.isDigit ∧ fp.all Char.isDigit then
          some ((ip ++ fp).foldl (fun a c => a * 10 + (c.toNat - 48)) 0, fp.length)
        else none
    match mantVal with
    | none => none
    | some (mv, fracLen) =>
      let base : ℚ := (if neg then -(mv : ℚ) else (mv : ℚ))
      match expPart with
      | none => some (base / 10 ^ fracLen)
      | some e =>
        let (eneg, ed) := readSign e
        match decDigits? ed with
        | some ev =>
          some (base * 10 ^ ((if eneg then -(ev : Int) else (ev : Int)) - (fracLen : Int)))
        | none => none

/-- `Float` from `bml.go`: `strconv.ParseFloat` of the trimmed value, or
the fallback on `nil` receiver or parse failure (values as exact
rationals, see `parseFloat?`). -/
def Node.Float : Option Node → ℚ → ℚ
  | none, fallback => fallback
  | some n, fallback =>
    match parseFloat? (trimSpace n.value) with
    | some q => q
    | none => fallback

/-! ### Serializer -/

/-- `n` spaces of indentation. -/
def indentSp (n : Nat) : List Char := List.replicate n ' '

mutual

/-- `serializeNode` from `bml.go`: indentation, name, then the value
block (empty / single-line `": v"` / one `": piece"` line per newline-
separated piece), then the children at `depth+1`. The Go source emits the
children through an `if`/`else` whose two branches are identical; they
are rendered once here. -/
def serializeNode (node : Node) (depth : Nat) : List Char :=
  match node with
  | .mk nm v cs =>
    indentSp (depth * 2) ++ nm ++
    (if v ≠ [] then
       if v.contains '\n' then
         '\n' :: ((splitOnChar '\n' v).map
           (fun piece => indentSp ((depth + 1) * 2) ++ ':' :: ' ' :: piece ++ ['\n'])).flatten
       else ':' :: ' ' :: v ++ ['\n']
     else ['\n']) ++
    serializeChildrenAt cs (depth + 1)

/-- The children loop of `serializeNode`. -/
def serializeChildrenAt : List Node → Nat → List Char
  | [], _ => []
  | c :: tl, depth => serializeNode c depth ++ serializeChildrenAt tl depth

end

/-- `Serialize` from `bml.go`: emit the root's children at depth 0 (the
root itself is never emitted; the `Document` wrapper is represented by
its root node). -/
def Serialize (root : Node) : List Char :=
  serializeChildrenAt root.children 0

/-! ### Auxiliary notions used only to state and prove the claims -/

instance instDecidableEqExcept {ε α : Type} [DecidableEq ε] [DecidableEq α] :
    DecidableEq (Except ε α) := fun a b =>
  match a, b with
  | .ok x, .ok y =>
    if h : x = y then isTrue (by rw [h])
    else isFalse (by intro hc; injection hc; contradiction)
  | .error x, .error y =>
    if h : x = y then isTrue (by rw [h])
    else isFalse (by intro hc; injection hc; contradiction)
  | .ok _, .error _ => isFalse (by intro hc; cases hc)
  | .error _, .ok _ => isFalse (by intro hc; cases hc)

/-- The node reached by following a list of child indices. -/
def nodeAt : Node → List Nat → Option Node
  | n, [] => some n
  | n, i :: q =>
    match n.children.get? i with
    | some c => nodeAt c q
    | none => none

/-- The index at which `Set`'s walk finds or appends the child named
`part`: the index of the first child with that name, or the length of the
children list (the append position) when none matches. -/
def childIdx (cs : List Node) (part : List Char) : Nat :=
  cs.findIdx (fun c => c.name == part)

/-- The child that `Set`'s walk descends into: the first child named
`part`, or a fresh empty node when none matches. -/
def childTarget (n : Node) (part : List Char) : Node :=
  match findChild n.children part with
  | some c => c
  | none => Node.mk part [] []

/-- The index path of the node whose value `Set` assigns, mirroring the
walk of `setParts`; `none` when the walk ends without assigning (empty
path or trailing empty segment). -/
def setAddr : Node → List (List Char) → Option (List Nat)
  | _, [] => none
  | n, [part] =>
    if part = [] then none else some [childIdx n.children part]
  | n, part :: rest =>
    if part = [] then setAddr n rest
    else (setAddr (childTarget n part) rest).map (childIdx n.children part :: ·)

/-- A name acceptable to the parser: nonempty, all characters valid. -/
def validName (s : List Char) : Bool :=
  !s.isEmpty && s.all isValidNameChar

/-- Invariants of every value produced by a successful parse: no carriage
return, and no leading newline. -/
def cleanValue (v : List Char) : Bool :=
  !v.contains '\r' && v.head? != some '\n'

mutual

/-- Every node of the tree has a parser-acceptable name and a clean value
(`Parse` establishes this for the root's descendants). -/
def cleanNode : Node → Bool
  | .mk nm v cs => validName nm && cleanValue v && cleanList cs

/-- `cleanNode` on every node of a list of trees. -/
def cleanList : List Node → Bool
  | [] => true
  | c :: tl => cleanNode c && cleanList tl

end

mutual

/-- Values that survive the serialize-then-parse cycle: a value without a
newline must be left unchanged by the inline-comment cut and by
right-trimming of spaces (multi-line values are re-read verbatim through
continuation lines and need no such condition). -/
def serialReady : Node → Bool
  | .mk _ v cs =>
    (v.contains '\n' || (commentScanLen v == v.length && rtrimSpaces v == v)) &&
    serialReadyList cs

/-- `serialReady` on every node of a list of trees. -/
def serialReadyList : List Node → Bool
  | [] => true
  | c :: tl => serialReady c && serialReadyList tl

end

mutual

/-- The lines emitted by `serializeNode`, as a list (each understood to be
followed by one newline): the node's own line, the `": piece"` lines of a
multi-line value, then the children's lines. -/
def serLines (n : Node) (d : Nat) : List (List Char) :=
  match n with
  | .mk nm v cs =>
    (indentSp (d * 2) ++ nm ++
        (if v ≠ [] ∧ ¬v.contains '\n' then ':' :: ' ' :: v else [])) ::
      ((if v.contains '\n' then
          (splitOnChar '\n' v).map
            (fun piece => indentSp ((d + 1) * 2) ++ ':' :: ' ' :: piece)
        else []) ++
        serLinesList cs (d + 1))

def serLinesList : List Node → Nat → List (List Char)
  | [], _ => []
  | c :: tl, d => serLines c d ++ serLinesList tl d

end

/-- Rejoin a line list into flat text, one newline after each line. -/
def joinLines (L : List (List Char)) : List Char :=
  (L.map (· ++ ['\n'])).flatten

/-- Rejoin the pieces of `splitOnChar c` with the separator. -/
def interChar (c : Char) : List (List Char) → List Char
  | [] => []
  | [p] => p
  | p :: ps => p ++ c :: interChar c ps

/-- A normalized line: contains neither a newline nor a carriage return. -/
def lineClean (l : List Char) : Bool :=
  !l.contains '\n' && !l.contains '\r'

/-- The accumulation performed by successive continuation lines: exactly
the value update of the child-consumption loop, folded over the pieces. -/
def contFold (acc : List Char) (pieces : List (List Char)) : List Char :=
  pieces.foldl (fun a p => (if a ≠ [] then a ++ ['\n'] else a) ++ p) acc

/-- Newline-prefixed concatenation of pieces (the tail of `interChar`). -/
def nlJoin : List (List Char) → List Char
  | [] => []
  | p :: ps => '\n' :: (p ++ nlJoin ps)

/-! ## Theorems -/

theorem atoi_nil : atoi? [] = none := by decide

theorem parseFloat_nil : parseFloat? [] = none := by decide

/-- C2 (counterexample): contrary to the claim, `String(f)` on a present
node whose trimmed value is empty does not return the fallback `f` — it
returns the empty string. -/
theorem C2_string_empty_counterexample :
    trimSpace (" ").toList = [] ∧
    Node.String (some (Node.mk ("A").toList (" ").toList [])) ("f").toList ≠ ("f").toList := by
  decide

/-- C2 (amended): all four accessors are total; each trims the node's
value of surrounding whitespace; `Bool`, `Int` and `Float` return the
fallback exactly when the receiver is absent, the trimmed value is empty,
or it fails to parse (`Bool` accepting exactly the literals `true` and
`false`), and otherwise return the coerced trimmed value; `String`
returns the fallback only when the receiver is absent, and on a present
node returns the trimmed value — the empty string, not the fallback, when
the trimmed value is empty. -/
theorem C2_accessors_amended (n : Node) (fs : List Char) (fb : Bool) (fi : Int) (fq : ℚ) :
    (Node.String none fs = fs ∧ Node.Bool none fb = fb ∧
      Node.Int none fi = fi ∧ Node.Float none fq = fq) ∧
    (Node.String (some n) fs = trimSpace n.value) ∧
    (Node.Bool (some n) fb =
      if trimSpace n.value = "true".toList then true
      else if trimSpace n.value = "false".toList then false
      else fb) ∧
    (trimSpace n.value = [] →
      Node.Bool (some n) fb = fb ∧ Node.Int (some n) fi = fi ∧
        Node.Float (some n) fq = fq) ∧
    (∀ i, atoi? (trimSpace n.value) = some i → Node.Int (some n) fi = i) ∧
    (atoi? (trimSpace n.value) = none → Node.Int (some n) fi = fi) ∧
    (∀ q, parseFloat? (trimSpace n.value) = some q → Node.Float (some n) fq = q) ∧
    (parseFloat? (trimSpace n.value) = none → Node.Float (some n) fq = fq) := by
  refine ⟨⟨rfl, rfl, rfl, rfl⟩, rfl, rfl, ?_, ?_, ?_, ?_, ?_⟩
  · intro h
    refine ⟨?_, ?_, ?_⟩
    · simp only [Node.Bool, h]
      rw [if_neg (by decide), if_neg (by decide)]
    · simp only [Node.Int, h, atoi_nil]
    · simp only [Node.Float, h, parseFloat_nil]
  · intro i h
    simp only [Node.Int, h]
  · intro h
    simp only [Node.Int, h]
  · intro q h
    simp only [Node.Float, h]
  · intro h
    simp only [Node.Float, h]

/-- C5: a line whose measured depth does not strictly exceed a
non-negative parent depth always makes `parseNode` fail with
`InvalidIndentation`; conversely, whenever `parseNode` succeeds under a
non-negative parent depth, the consumed line's depth strictly exceeds it,
so no node is ever silently attached under a parent it does not
out-indent. -/
theorem C5_depth_monotonicity (fuel : Nat) (line : List Char)
    (rest : List (List Char)) (pd : Int) :
    (0 ≤ pd → (readDepth line : Int) ≤ pd →
      parseNode (fuel + 1) (line :: rest) pd = .error (.invalidIndentation line)) ∧
    (∀ node r flag, parseNode fuel (line :: rest) pd = .ok (node, r, flag) →
      0 ≤ pd → pd < (readDepth line : Int)) := by
  constructor
  · intro h1 h2
    simp only [parseNode]
    rw [if_pos ⟨h2, h1⟩]
  · intro node r flag hok h0
    by_contra hlt
    push_neg at hlt
    match fuel with
    | 0 =>
      simp only [parseNode] at hok
      cases hok
    | fuel + 1 =>
      simp only [parseNode] at hok
      rw [if_pos ⟨hlt, h0⟩] at hok
      cases hok

/-- C5 (witness): the depth check at a concrete over- and under-indented
line. -/
theorem C5_depth_monotonicity_witness :
    parseNode 3 [(" B").toList] 1 = .error (.invalidIndentation (" B").toList) ∧
    (1 : Int) < readDepth ("  B").toList :=
  ⟨(C5_depth_monotonicity 2 (" B").toList [] 1).1 (by decide) (by decide),
    (C5_depth_monotonicity 3 ("  B").toList [] 1).2
      (Node.mk ("B").toList [] []) [] false (by decide) (by decide)⟩

/-- C6: after `="`, if no closing quote occurs before end of line the
value micro-parser fails with `UnclosedQuote`; with a closing quote the
value is the enclosed text verbatim. The error aborts the whole parse and
is surfaced as the sole result, both when the quoted value belongs to the
node itself and when it belongs to an inline attribute (shown on concrete
inputs; `Except` carries either an error or a tree, never both). -/
theorem C6_unclosed_quote (line : List Char) (pos : Nat)
    (h1 : line.get? pos = some '=') (h2 : line.get? (pos + 1) = some '"') :
    ((line.drop (pos + 2)).findIdx? (· == '"') = none →
      parseValue line pos = .error (.unclosedQuote line)) ∧
    (∀ k, (line.drop (pos + 2)).findIdx? (· == '"') = some k →
      parseValue line pos =
        .ok ((line.drop (pos + 2)).take k, pos + 2 + k + 1, true)) ∧
    Parse ("Driver=\"Metal").toList =
      .error (.unclosedQuote ("Driver=\"Metal").toList) ∧
    Parse ("A b=\"x").toList = .error (.unclosedQuote ("A b=\"x").toList) := by
  have hpos : pos < line.length := List.get?_eq_some.mp h1 |>.1
  have hpos1 : pos + 1 < line.length := List.get?_eq_some.mp h2 |>.1
  refine ⟨?_, ?_, by decide, by decide⟩
  · intro hnone
    simp only [parseValue]
    rw [if_neg (by omega), h1]
    simp only
    rw [if_neg (by omega), if_pos h2, hnone]
  · intro k hk
    simp only [parseValue]
    rw [if_neg (by omega), h1]
    simp only
    rw [if_neg (by omega), if_pos h2, hk]

/-- C6 (witness): the quote scan at a concrete unclosed and a concrete
closed quoted value. -/
theorem C6_unclosed_quote_witness :
    parseValue ("A=\"xy").toList 1 = .error (.unclosedQuote ("A=\"xy").toList) ∧
    parseValue ("A=\"xy\"").toList 1 = .ok (("xy").toList, 6, true) :=
  ⟨(C6_unclosed_quote ("A=\"xy").toList 1 (by decide) (by decide)).1 (by decide),
    (C6_unclosed_quote ("A=\"xy\"").toList 1 (by decide) (by decide)).2.1 2 (by decide)⟩

/-- C7: during child consumption, a line deeper than the current node
whose first non-whitespace character is `:` is a continuation line: the
`:` and at most one following space are stripped and the remainder is
appended to the node's value, joined by a newline if the value is
non-empty, verbatim otherwise; concretely, `"Desc\n  : Line 1\n  : Line 2"`
parses to a single node `Desc` with value `"Line 1\nLine 2"`. -/
theorem C7_continuation (fuel : Nat) (line : List Char) (rest : List (List Char))
    (depth : Nat) (node : Node)
    (hd : depth < readDepth line)
    (hc : (line.dropWhile (fun c => c == ' ' || c == '\t')).head? = some ':') :
    (parseChildren (fuel + 1) (line :: rest) depth node =
      parseChildren fuel rest depth (node.withValue
        ((if node.value ≠ [] then node.value ++ ['\n'] else node.value) ++
          (if ((line.dropWhile (fun c => c == ' ' || c == '\t')).tail).head? = some ' '
           then ((line.dropWhile (fun c => c == ' ' || c == '\t')).tail).tail
           else (line.dropWhile (fun c => c == ' ' || c == '\t')).tail)))) ∧
    Parse ("Desc\n  : Line 1\n  : Line 2").toList =
      .ok (Node.mk [] [] [Node.mk ("Desc").toList ("Line 1\nLine 2").toList []]) := by
  refine ⟨?_, by decide⟩
  simp only [parseChildren]
  rw [if_neg (Nat.not_le.mpr hd), if_pos hc]

/-- C7 (witness): the continuation step on a concrete line. -/
theorem C7_continuation_witness :
    parseChildren 3 [("  : x").toList] 0 (Node.mk ("D").toList ("a").toList []) =
      parseChildren 2 [] 0 (Node.mk ("D").toList ("a\nx").toList []) :=
  (C7_continuation 2 ("  : x").toList [] 0 (Node.mk ("D").toList ("a").toList [])
    (by decide) (by decide)).1.trans (by decide)

theorem commentScanLen_cons (head : Char) (rest : List Char)
    (h : ∀ tail : List Char, head = '/' → rest = '/' :: tail → False) :
    commentScanLen (head :: rest) = commentScanLen rest + 1 := by
  rw [commentScanLen.eq_def]
  split
  · next tail heq =>
    injection heq with h1 h2
    exact (h tail h1 h2).elim
  · next a b hne heq =>
    injection heq with h1 h2
    rw [h2]
  · next heq => cases heq

theorem commentScanLen_le (t : List Char) : commentScanLen t ≤ t.length := by
  induction t using commentScanLen.induct with
  | case1 tail => simp [commentScanLen]
  | case2 head rest h ih =>
    rw [commentScanLen_cons head rest h]
    simp only [List.length_cons]
    omega
  | case3 => simp [commentScanLen]

theorem commentScanLen_no_marker (t : List Char) :
    ∀ i, i < commentScanLen t →
      ¬(t.get? i = some '/' ∧ t.get? (i + 1) = some '/') := by
  induction t using commentScanLen.induct with
  | case1 tail => simp [commentScanLen]
  | case2 head rest h ih =>
    intro i hi
    rw [commentScanLen_cons head rest h] at hi
    match i with
    | 0 =>
      rintro ⟨ha, hb⟩
      simp only [List.get?_cons_zero, Option.some.injEq] at ha
      simp only [List.get?_cons_succ] at hb
      match rest, hb with
      | r0 :: rtail, hb =>
        simp only [List.get?_cons_zero, Option.some.injEq] at hb
        exact h rtail ha (by rw [hb])
    | i + 1 =>
      rintro ⟨ha, hb⟩
      simp only [List.get?_cons_succ] at ha hb
      exact ih i (by omega) ⟨ha, hb⟩
  | case3 => simp [commentScanLen]

theorem commentScanLen_boundary (t : List Char) :
    commentScanLen t = t.length ∨
      (t.get? (commentScanLen t) = some '/' ∧
        t.get? (commentScanLen t + 1) = some '/') := by
  induction t using commentScanLen.induct with
  | case1 tail => right; simp [commentScanLen]
  | case2 head rest h ih =>
    rw [commentScanLen_cons head rest h]
    rcases ih with ih | ih
    · left; simp [ih]
    · right
      simpa using ih
  | case3 => left; simp [commentScanLen]

/-- C8: at a `:` the value micro-parser advances past the colon, skips at
most one following space, takes the remainder of the line up to but not
including an inline `//` marker (`k` characters, none of which starts a
`//` pair), right-trims spaces from it, and leaves the cursor at the
marker or at end of line. -/
theorem C8_colon_value (line : List Char) (pos : Nat)
    (h : line.get? pos = some ':') :
    ∃ pos2 k,
      pos2 = (if line.get? (pos + 1) = some ' ' then pos + 2 else pos + 1) ∧
      parseValue line pos = .ok (rtrimSpaces ((line.drop pos2).take k), pos2 + k, false) ∧
      k ≤ (line.drop pos2).length ∧
      (∀ i, i < k → ¬((line.drop pos2).get? i = some '/' ∧
        (line.drop pos2).get? (i + 1) = some '/')) ∧
      (k = (line.drop pos2).length ∨
        ((line.drop pos2).get? k = some '/' ∧
          (line.drop pos2).get? (k + 1) = some '/')) := by
  have hlt : pos < line.length := (List.get?_eq_some.mp h).1
  refine ⟨(if line.get? (pos + 1) = some ' ' then pos + 2 else pos + 1),
    commentScanLen
      (line.drop (if line.get? (pos + 1) = some ' ' then pos + 2 else pos + 1)),
    rfl, ?_, commentScanLen_le _, commentScanLen_no_marker _, commentScanLen_boundary _⟩
  simp only [parseValue]
  rw [if_neg (by omega), h]
  rfl

/-- C8 (witness): the colon-value scan on a concrete line with an inline
comment. -/
theorem C8_colon_value_witness :
    parseValue ("A: v  // c").toList 1 = .ok (("v").toList, 6, false) := by
  obtain ⟨pos2, k, hp2, hk, hle, -, -⟩ := C8_colon_value ("A: v  // c").toList 1 (by decide)
  have h3 : pos2 = 3 := by rw [hp2]; decide
  subst h3
  have hle7 : k ≤ 7 := le_trans hle (by decide)
  interval_cases k
  all_goals first
    | (rw [hk]; decide)
    | (exfalso; revert hk; decide)

theorem parseValue_error_eq (line : List Char) (pos : Nat) (e : Err)
    (h : parseValue line pos = .error e) : e = .unclosedQuote line := by
  unfold parseValue at h
  split at h
  · cases h
  · split at h
    · cases h
    · dsimp only at h
      split at h
      · cases h
      · split at h
        · split at h
          · cases h
            rfl
          · cases h
        · cases h
    · cases h

theorem parseAttrs_error_ne_ueoi (fuel : Nat) (line : List Char) (pos : Nat)
    (node : Node) (e : Err) (h : parseAttrs fuel line pos node = .error e) :
    e ≠ .unexpectedEndOfInput := by
  induction fuel generalizing pos node e with
  | zero =>
    simp only [parseAttrs] at h
    cases h
    nofun
  | succ fuel ih =>
    simp only [parseAttrs] at h
    split at h
    · cases h
    · split at h
      · cases h
      · split at h
        · cases h
        · split at h
          · rename_i e' heq
            have h2 : e' = .unclosedQuote line := by
              split at heq
              · exact parseValue_error_eq _ _ _ heq
              · cases heq
            subst h2
            cases h
            nofun
          · split at h
            · next heq =>
              cases h
              exact ih _ _ _ heq
            · cases h

theorem parseNode_children_ne_ueoi (fuel : Nat) :
    (∀ (ls : List (List Char)) (pd : Int) (e : Err), ls ≠ [] →
      parseNode fuel ls pd = .error e → e ≠ .unexpectedEndOfInput) ∧
    (∀ (ls : List (List Char)) (d : Nat) (node : Node) (e : Err),
      parseChildren fuel ls d node = .error e → e ≠ .unexpectedEndOfInput) := by
  induction fuel with
  | zero =>
    constructor
    · intro ls pd e hne h
      match ls with
      | [] => exact absurd rfl hne
      | l :: rest =>
        simp only [parseNode] at h
        cases h
        nofun
    · intro ls d node e h
      match ls with
      | [] =>
        simp only [parseChildren] at h
        cases h
      | l :: rest =>
        simp only [parseChildren] at h
        cases h
        nofun
  | succ fuel ih =>
    obtain ⟨ihN, ihC⟩ := ih
    constructor
    · intro ls pd e hne h
      match ls with
      | [] => exact absurd rfl hne
      | l :: rest =>
        simp only [parseNode] at h
        split at h
        · cases h
          nofun
        · split at h
          · cases h
            nofun
          · split at h
            · rename_i e' heq
              have h2 : e' = .unclosedQuote l := by
                split at heq
                · exact parseValue_error_eq _ _ _ heq
                · cases heq
              subst h2
              cases h
              nofun
            · split at h
              · next heq =>
                cases h
                exact parseAttrs_error_ne_ueoi _ _ _ _ _ heq
              · split at h
                · next heq =>
                  cases h
                  exact ihC _ _ _ _ heq
                · cases h
    · intro ls d node e h
      match ls with
      | [] =>
        simp only [parseChildren] at h
        cases h
      | l :: rest =>
        simp only [parseChildren] at h
        split at h
        · cases h
        · split at h
          · exact ihC _ _ _ _ h
          · split at h
            · next heq =>
              cases h
              exact ihN _ _ _ (by simp) heq
            · split at h
              · next heq =>
                cases h
                exact ihC _ _ _ _ heq
              · cases h

theorem parseTop_ne_ueoi (fuel : Nat) (ls : List (List Char)) (e : Err)
    (h : parseTop fuel ls = .error e) : e ≠ .unexpectedEndOfInput := by
  induction fuel generalizing ls e with
  | zero =>
    match ls with
    | [] =>
      simp only [parseTop] at h
      cases h
    | l :: rest =>
      simp only [parseTop] at h
      cases h
      nofun
  | succ fuel ih =>
    match ls with
    | [] =>
      simp only [parseTop] at h
      cases h
    | l :: rest =>
      simp only [parseTop] at h
      split at h
      · next heq =>
        cases h
        exact (parseNode_children_ne_ueoi fuel).1 _ _ _ (by simp) heq
      · split at h
        · next heq =>
          cases h
          exact ih _ _ heq
        · cases h

/-- C9: for every input, the top-level `Parse` never returns the
`UnexpectedEndOfInput` error — the branch raising it is unreachable from
`Parse`, because the top-level loop and the child-consumption loop only
invoke `parseNode` while lines remain. -/
theorem C9_no_unexpected_end (data : List Char) :
    Parse data ≠ .error .unexpectedEndOfInput := by
  intro h
  unfold Parse ParseI at h
  dsimp only at h
  split at h
  · simp only [Except.map] at h
    cases h
  · split at h
    · next e heq =>
      simp only [Except.map] at h
      cases h
      exact parseTop_ne_ueoi _ _ _ heq rfl
    · simp only [Except.map] at h
      cases h

/-- C9 (witness): `Parse` at concrete inputs (one succeeding, one failing
with a different error) does not return `UnexpectedEndOfInput`. -/
theorem C9_no_unexpected_end_witness :
    Parse ("A").toList ≠ .error .unexpectedEndOfInput ∧
    Parse ("  : value").toList ≠ .error .unexpectedEndOfInput :=
  ⟨C9_no_unexpected_end ("A").toList, C9_no_unexpected_end ("  : value").toList⟩

/-! ### Path lemmas for `Get`, `Set`, `Remove` -/

@[simp] theorem Node.name_mk (nm v : List Char) (cs : List Node) :
    (Node.mk nm v cs).name = nm := rfl

@[simp] theorem Node.value_mk (nm v : List Char) (cs : List Node) :
    (Node.mk nm v cs).value = v := rfl

@[simp] theorem Node.children_mk (nm v : List Char) (cs : List Node) :
    (Node.mk nm v cs).children = cs := rfl

@[simp] theorem Node.withValue_name (n : Node) (v : List Char) :
    (n.withValue v).name = n.name := by cases n; rfl

@[simp] theorem Node.withValue_value (n : Node) (v : List Char) :
    (n.withValue v).value = v := by cases n; rfl

@[simp] theorem Node.withChildren_name (n : Node) (cs : List Node) :
    (n.withChildren cs).name = n.name := by cases n; rfl

@[simp] theorem Node.withChildren_value (n : Node) (cs : List Node) :
    (n.withChildren cs).value = n.value := by cases n; rfl

@[simp] theorem Node.withChildren_children (n : Node) (cs : List Node) :
    (n.withChildren cs).children = cs := by cases n; rfl

theorem findChild_cons (c : Node) (cs : List Node) (part : List Char) :
    findChild (c :: cs) part = if c.name = part then some c else findChild cs part := by
  by_cases h : c.name = part
  · simp [findChild, List.find?, h]
  · simp only [findChild, List.find?]
    rw [show (c.name == part) = false from by simpa using h, if_neg h]

theorem setParts_name_value (v : List Char) (n : Node) (parts : List (List Char)) :
    (setParts v n parts).name = n.name ∧ (setParts v n parts).value = n.value := by
  induction n, parts using setParts.induct v with
  | case1 n => exact ⟨rfl, rfl⟩
  | case2 n => simp [setParts]
  | case3 n part h =>
    simp [setParts, if_neg h]
  | case4 n rest hne ih =>
    simpa only [setParts] using ih
  | case5 n part rest hne hp ih =>
    have hcons : ∃ q qs, rest = q :: qs := by
      cases rest
      · exact (hne rfl).elim
      · exact ⟨_, _, rfl⟩
    obtain ⟨q, qs, rfl⟩ := hcons
    simp [setParts, if_neg hp]

theorem updateChild_congr (part : List Char) (f g : Node → Node)
    (h : ∀ c, f c = g c) (cs : List Node) :
    updateChild part f cs = updateChild part g cs := by
  induction cs with
  | nil => simp [updateChild, h]
  | cons c tl ih =>
    simp only [updateChild, h]
    split
    · rfl
    · rw [ih]

theorem findChild_updateChild (part : List Char) (f : Node → Node)
    (hf : ∀ c, (f c).name = c.name) (cs : List Node) :
    findChild (updateChild part f cs) part =
      some (f ((findChild cs part).getD (Node.mk part [] []))) := by
  induction cs with
  | nil =>
    simp only [updateChild]
    rw [findChild_cons, if_pos (by rw [hf]; rfl)]
    rfl
  | cons c tl ih =>
    by_cases h : c.name = part
    · simp only [updateChild, if_pos h]
      rw [findChild_cons, if_pos (by rw [hf]; exact h), findChild_cons, if_pos h]
      rfl
    · simp only [updateChild, if_neg h]
      rw [findChild_cons, if_neg h, ih, findChild_cons, if_neg h]

theorem updateChild_comp (part : List Char) (f g : Node → Node)
    (hf : ∀ c, (f c).name = c.name) (cs : List Node) :
    updateChild part g (updateChild part f cs) =
      updateChild part (fun c => g (f c)) cs := by
  induction cs with
  | nil =>
    simp only [updateChild]
    rw [if_pos (by rw [hf]; rfl)]
  | cons c tl ih =>
    by_cases h : c.name = part
    · simp only [updateChild, if_pos h]
      rw [if_pos (by rw [hf]; exact h)]
    · simp only [updateChild, if_neg h]
      rw [ih]

theorem getLastD_default_irrel (l : List (List Char)) (hl : l ≠ []) (d d' : List Char) :
    l.getLastD d = l.getLastD d' := by
  cases l with
  | nil => exact absurd rfl hl
  | cons a m => rw [List.getLastD_cons, List.getLastD_cons]

theorem set_get_parts (v : List Char) (n : Node) (parts : List (List Char))
    (h : parts.getLastD [] ≠ []) :
    (getParts (setParts v n parts) parts).map Node.value = some v := by
  induction n, parts using setParts.induct v with
  | case1 n => simp at h
  | case2 n => simp at h
  | case3 n part hp =>
    cases n with
    | mk nm vl cs =>
      simp only [setParts, if_neg hp, Node.withChildren, getParts, Node.children_mk]
      rw [findChild_updateChild part _ (fun c => by simp) cs]
      simp [getParts]
  | case4 n rest hne ih =>
    rw [List.getLastD_cons, getLastD_default_irrel rest hne [] []] at h
    have := ih h
    simpa only [setParts, getParts, if_pos rfl] using this
  | case5 n part rest hne hp ih =>
    have hrest : rest.getLastD [] ≠ [] := by
      rw [List.getLastD_cons, getLastD_default_irrel rest hne part []] at h
      exact h
    cases n with
    | mk nm vl cs =>
      have hcons : ∃ q qs, rest = q :: qs := by
        cases rest
        · exact (hne rfl).elim
        · exact ⟨_, _, rfl⟩
      obtain ⟨q, qs, hrw⟩ := hcons
      rw [hrw] at hrest ih ⊢
      simp only [setParts, if_neg hp, Node.withChildren, Node.children_mk]
      simp only [getParts, if_neg hp, Node.children_mk]
      rw [findChild_updateChild part _
        (fun c => (setParts_name_value v c (q :: qs)).1) cs]
      exact ih _ hrest

theorem set_set_parts (v : List Char) (n : Node) (parts : List (List Char)) :
    setParts v (setParts v n parts) parts = setParts v n parts := by
  induction n, parts using setParts.induct v with
  | case1 n => rfl
  | case2 n => simp [setParts]
  | case3 n part hp =>
    cases n with
    | mk nm vl cs =>
      simp only [setParts, if_neg hp, Node.withChildren, Node.children_mk]
      rw [updateChild_comp part _ _ (fun c => by simp) cs]
      exact congrArg (Node.mk nm vl)
        (updateChild_congr part _ _ (fun c => by cases c; rfl) cs)
  | case4 n rest hne ih =>
    simpa only [setParts] using ih
  | case5 n part rest hne hp ih =>
    cases n with
    | mk nm vl cs =>
      have hcons : ∃ q qs, rest = q :: qs := by
        cases rest
        · exact (hne rfl).elim
        · exact ⟨_, _, rfl⟩
      obtain ⟨q, qs, hrw⟩ := hcons
      rw [hrw] at ih ⊢
      simp only [setParts, if_neg hp, Node.withChildren, Node.children_mk]
      rw [updateChild_comp part _ _
        (fun c => (setParts_name_value v c (q :: qs)).1) cs]
      exact congrArg (Node.mk nm vl)
        (updateChild_congr part _ _ (fun c => ih c) cs)

/-- C3 (counterexample): for the non-empty path `"A/"` (trailing slash),
`Set` walks to the node but never assigns the value, so the subsequent
`Get` does not see the written value. -/
theorem C3_trailing_slash_counterexample :
    (((Node.mk [] [] []).Set ("A/").toList ("x").toList).Get ("A/").toList).map
      Node.value ≠ some ("x").toList := by
  decide

/-- C3 (amended): for every node, every value, and every path whose final
`/`-segment is non-empty (in particular every non-empty path not ending in
a slash), `Set(p, v)` followed by `Get(p)` yields a node whose value is
`v`, and a second `Set(p, v)` is idempotent: it creates no duplicate nodes
and leaves the tree identical to the tree after the first call. -/
theorem C3_set_get_idempotent (n : Node) (p v : List Char)
    (h : (splitOnChar '/' p).getLastD [] ≠ []) :
    ((n.Set p v).Get p).map Node.value = some v ∧
    (n.Set p v).Set p v = n.Set p v :=
  ⟨set_get_parts v n (splitOnChar '/' p) h,
    set_set_parts v n (splitOnChar '/' p)⟩

/-- C3 (witness): set-then-get and idempotence at a concrete path. -/
theorem C3_set_get_idempotent_witness :
    (((Node.mk [] [] []).Set ("A/B").toList ("x").toList).Get
        ("A/B").toList).map Node.value = some ("x").toList ∧
    ((Node.mk [] [] []).Set ("A/B").toList ("x").toList).Set
        ("A/B").toList ("x").toList =
      (Node.mk [] [] []).Set ("A/B").toList ("x").toList :=
  C3_set_get_idempotent (Node.mk [] [] []) ("A/B").toList ("x").toList (by decide)

theorem getParts_filter (n : Node) (parts : List (List Char)) :
    getParts n parts = getParts n (parts.filter (fun q => !q.isEmpty)) := by
  induction n, parts using getParts.induct with
  | case1 n => rfl
  | case2 n rest ih =>
    simpa only [getParts, List.filter_cons, List.isEmpty_nil, Bool.not_true,
      if_pos rfl] using ih
  | case3 n part rest hp c hc ih =>
    have hkeep : (!part.isEmpty) = true := by
      cases part
      · exact absurd rfl hp
      · rfl
    simp only [getParts, if_neg hp, hc, List.filter_cons, hkeep, if_pos rfl]
    exact ih
  | case4 n part rest hp hc =>
    have hkeep : (!part.isEmpty) = true := by
      cases part
      · exact absurd rfl hp
      · rfl
    simp only [getParts, if_neg hp, hc, List.filter_cons, hkeep, if_pos rfl]

theorem filter_nonempty_of_getLastD (l : List (List Char))
    (h : l.getLastD [] ≠ []) : l.filter (fun q => !q.isEmpty) ≠ [] := by
  induction l with
  | nil => simp at h
  | cons a m ih =>
    rw [List.getLastD_cons] at h
    cases m with
    | nil =>
      have ha : a ≠ [] := h
      have hkeep : (!a.isEmpty) = true := by
        cases a
        · exact absurd rfl ha
        · rfl
      simp [List.filter_cons, hkeep]
    | cons b k =>
      have hm : (b :: k).getLastD [] ≠ [] := by
        rw [List.getLastD_cons]
        rw [List.getLastD_cons] at h
        exact h
      have hne := ih hm
      rw [List.filter_cons]
      by_cases hb : (!a.isEmpty) = true
      · rw [if_pos hb]
        simp
      · rw [if_neg hb]
        exact hne

theorem setParts_filter (v : List Char) (n : Node) (parts : List (List Char))
    (h : parts.getLastD [] ≠ []) :
    setParts v n parts = setParts v n (parts.filter (fun q => !q.isEmpty)) := by
  induction n, parts using setParts.induct v with
  | case1 n => rfl
  | case2 n => simp at h
  | case3 n part hp =>
    have hkeep : (!part.isEmpty) = true := by
      cases part
      · exact absurd rfl hp
      · rfl
    simp [List.filter_cons, hkeep]
  | case4 n rest hne ih =>
    rw [List.getLastD_cons, getLastD_default_irrel rest hne [] []] at h
    simpa only [setParts, List.filter_cons, List.isEmpty_nil, Bool.not_true,
      if_pos rfl] using ih h
  | case5 n part rest hne hp ih =>
    have hrest : rest.getLastD [] ≠ [] := by
      rw [List.getLastD_cons, getLastD_default_irrel rest hne part []] at h
      exact h
    have hkeep : (!part.isEmpty) = true := by
      cases part
      · exact absurd rfl hp
      · rfl
    have hfne := filter_nonempty_of_getLastD rest hrest
    obtain ⟨q, qs, hq⟩ : ∃ q qs, rest.filter (fun x => !x.isEmpty) = q :: qs := by
      cases hx : rest.filter (fun x => !x.isEmpty)
      · exact absurd hx hfne
      · exact ⟨_, _, rfl⟩
    obtain ⟨r, rs, hr⟩ : ∃ r rs, rest = r :: rs := by
      cases rest
      · exact (hne rfl).elim
      · exact ⟨_, _, rfl⟩
    rw [hr] at hrest hq ih ⊢
    rw [List.filter_cons, hkeep, if_pos rfl, hq]
    simp only [setParts, if_neg hp]
    have harg : ∀ c : Node, setParts v c (r :: rs) = setParts v c (q :: qs) := by
      intro c
      rw [← hq]
      exact ih c hrest
    rw [updateChild_congr part _ _ harg]

theorem mapFirstChild_congr (part : List Char) (f g : Node → Node × Bool)
    (h : ∀ c, f c = g c) (cs : List Node) :
    mapFirstChild part f cs = mapFirstChild part g cs := by
  induction cs with
  | nil => rfl
  | cons c tl ih =>
    simp only [mapFirstChild, h]
    split
    · rfl
    · rw [ih]

theorem removeParts_filter (n : Node) (parts : List (List Char))
    (h : parts.getLastD [] ≠ []) :
    removeParts n parts = removeParts n (parts.filter (fun q => !q.isEmpty)) := by
  induction n, parts using removeParts.induct with
  | case1 n => rfl
  | case2 n part r b hrb =>
    have hp : part ≠ [] := by simpa using h
    have hkeep : (!part.isEmpty) = true := by
      cases part
      · exact absurd rfl hp
      · rfl
    simp [List.filter_cons, hkeep]
  | case3 n rest hne ih =>
    rw [List.getLastD_cons, getLastD_default_irrel rest hne [] []] at h
    simpa only [removeParts, List.filter_cons, List.isEmpty_nil, Bool.not_true,
      if_pos rfl] using ih h
  | case4 n part rest hne hp cs2 b heq ih =>
    have hrest : rest.getLastD [] ≠ [] := by
      rw [List.getLastD_cons, getLastD_default_irrel rest hne part []] at h
      exact h
    have hkeep : (!part.isEmpty) = true := by
      cases part
      · exact absurd rfl hp
      · rfl
    have hfne := filter_nonempty_of_getLastD rest hrest
    obtain ⟨q, qs, hq⟩ : ∃ q qs, rest.filter (fun x => !x.isEmpty) = q :: qs := by
      cases hx : rest.filter (fun x => !x.isEmpty)
      · exact absurd hx hfne
      · exact ⟨_, _, rfl⟩
    obtain ⟨r, rs, hr⟩ : ∃ r rs, rest = r :: rs := by
      cases rest
      · exact (hne rfl).elim
      · exact ⟨_, _, rfl⟩
    rw [hr] at hrest hq ih ⊢
    rw [List.filter_cons, hkeep, if_pos rfl, hq]
    simp only [removeParts, if_neg hp]
    have harg : ∀ c : Node, removeParts c (r :: rs) = removeParts c (q :: qs) := by
      intro c
      rw [← hq]
      exact ih c hrest
    rw [mapFirstChild_congr part _ _ harg]
  | case5 n part rest hne hp heq ih =>
    have hrest : rest.getLastD [] ≠ [] := by
      rw [List.getLastD_cons, getLastD_default_irrel rest hne part []] at h
      exact h
    have hkeep : (!part.isEmpty) = true := by
      cases part
      · exact absurd rfl hp
      · rfl
    have hfne := filter_nonempty_of_getLastD rest hrest
    obtain ⟨q, qs, hq⟩ : ∃ q qs, rest.filter (fun x => !x.isEmpty) = q :: qs := by
      cases hx : rest.filter (fun x => !x.isEmpty)
      · exact absurd hx hfne
      · exact ⟨_, _, rfl⟩
    obtain ⟨r, rs, hr⟩ : ∃ r rs, rest = r :: rs := by
      cases rest
      · exact (hne rfl).elim
      · exact ⟨_, _, rfl⟩
    rw [hr] at hrest hq ih ⊢
    rw [List.filter_cons, hkeep, if_pos rfl, hq]
    simp only [removeParts, if_neg hp]
    have harg : ∀ c : Node, removeParts c (r :: rs) = removeParts c (q :: qs) := by
      intro c
      rw [← hq]
      exact ih c hrest
    rw [mapFirstChild_congr part _ _ harg]

/-- C4 (counterexample): contrary to the claim, a trailing empty segment
is not skipped by `Remove`: on a tree with child `A`, `Remove("A/")`
removes nothing while `Remove("A")` removes the child. -/
theorem C4_trailing_slash_counterexample :
    (Node.mk [] [] [Node.mk ("A").toList [] []]).Remove ("A/").toList ≠
      (Node.mk [] [] [Node.mk ("A").toList [] []]).Remove ("A").toList := by
  decide

/-- C4 (amended): `Get` skips all empty path segments, so leading,
trailing, and doubled slashes are all inert for it, and the empty path
resolves to the receiver; `Set` and `Remove` skip empty segments as long
as the final segment is non-empty, so `"A//B"` and `"/A/B"` behave like
`"A/B"` in all three operations, but a trailing empty segment (as in
`"A/B/"`) changes the behavior of `Set` and `Remove`. -/
theorem C4_empty_segments (n : Node) (parts : List (List Char)) (v : List Char) :
    (getParts n parts = getParts n (parts.filter (fun q => !q.isEmpty))) ∧
    (Node.Get n [] = some n) ∧
    (parts.getLastD [] ≠ [] →
      setParts v n parts = setParts v n (parts.filter (fun q => !q.isEmpty)) ∧
      removeParts n parts = removeParts n (parts.filter (fun q => !q.isEmpty))) ∧
    (n.Get ("A//B").toList = n.Get ("A/B").toList ∧
      n.Get ("/A/B").toList = n.Get ("A/B").toList ∧
      n.Get ("A/B/").toList = n.Get ("A/B").toList ∧
      n.Set ("A//B").toList v = n.Set ("A/B").toList v ∧
      n.Set ("/A/B").toList v = n.Set ("A/B").toList v ∧
      n.Remove ("A//B").toList = n.Remove ("A/B").toList ∧
      n.Remove ("/A/B").toList = n.Remove ("A/B").toList) := by
  refine ⟨getParts_filter n parts, rfl,
    fun h => ⟨setParts_filter v n parts h, removeParts_filter n parts h⟩,
    ?_, ?_, ?_, ?_, ?_, ?_, ?_⟩
  · show getParts n _ = getParts n _
    rw [getParts_filter n (splitOnChar '/' ("A//B").toList),
      getParts_filter n (splitOnChar '/' ("A/B").toList)]
    rfl
  · show getParts n _ = getParts n _
    rw [getParts_filter n (splitOnChar '/' ("/A/B").toList),
      getParts_filter n (splitOnChar '/' ("A/B").toList)]
    rfl
  · show getParts n _ = getParts n _
    rw [getParts_filter n (splitOnChar '/' ("A/B/").toList),
      getParts_filter n (splitOnChar '/' ("A/B").toList)]
    rfl
  · show setParts v n _ = setParts v n _
    rw [setParts_filter v n (splitOnChar '/' ("A//B").toList) (by decide),
      setParts_filter v n (splitOnChar '/' ("A/B").toList) (by decide)]
    rfl
  · show setParts v n _ = setParts v n _
    rw [setParts_filter v n (splitOnChar '/' ("/A/B").toList) (by decide),
      setParts_filter v n (splitOnChar '/' ("A/B").toList) (by decide)]
    rfl
  · show removeParts n _ = removeParts n _
    rw [removeParts_filter n (splitOnChar '/' ("A//B").toList) (by decide),
      removeParts_filter n (splitOnChar '/' ("A/B").toList) (by decide)]
    rfl
  · show removeParts n _ = removeParts n _
    rw [removeParts_filter n (splitOnChar '/' ("/A/B").toList) (by decide),
      removeParts_filter n (splitOnChar '/' ("A/B").toList) (by decide)]
    rfl

/-- C4 (witness): the empty-segment normalization at a concrete tree and
path. -/
theorem C4_empty_segments_witness :
    setParts ("x").toList (Node.mk [] [] []) [("A").toList, [], ("B").toList] =
      setParts ("x").toList (Node.mk [] [] [])
        ([("A").toList, [], ("B").toList].filter (fun q => !q.isEmpty)) :=
  ((C4_empty_segments (Node.mk [] [] []) [("A").toList, [], ("B").toList]
      ("x").toList).2.2.1 (by decide)).1

/-! ### Frame lemmas for `Set` (claim C10) -/

theorem childIdx_nil (part : List Char) : childIdx [] part = 0 := rfl

theorem childIdx_cons (c : Node) (tl : List Node) (part : List Char) :
    childIdx (c :: tl) part = if c.name = part then 0 else childIdx tl part + 1 := by
  simp only [childIdx, List.findIdx_cons]
  by_cases h : c.name = part
  · simp [h]
  · rw [show (c.name == part) = false from by simpa using h, if_neg h]
    rfl

theorem updateChild_get?_of_ne (part : List Char) (f : Node → Node) (cs : List Node) :
    ∀ j, j ≠ childIdx cs part → (updateChild part f cs).get? j = cs.get? j := by
  induction cs with
  | nil =>
    intro j hj
    match j with
    | 0 => exact absurd rfl hj
    | j + 1 => simp [updateChild]
  | cons c tl ih =>
    intro j hj
    rw [childIdx_cons] at hj
    by_cases h : c.name = part
    · rw [if_pos h] at hj
      simp only [updateChild, if_pos h]
      match j with
      | 0 => exact absurd rfl hj
      | j + 1 => simp [List.get?_cons_succ]
    · rw [if_neg h] at hj
      simp only [updateChild, if_neg h]
      match j with
      | 0 => simp
      | j + 1 =>
        simp only [List.get?_cons_succ]
        exact ih j (by omega)

theorem updateChild_get?_childIdx (part : List Char) (f : Node → Node) (cs : List Node) :
    (updateChild part f cs).get? (childIdx cs part) =
      some (f ((cs.get? (childIdx cs part)).getD (Node.mk part [] []))) := by
  induction cs with
  | nil => rfl
  | cons c tl ih =>
    rw [childIdx_cons]
    by_cases h : c.name = part
    · rw [if_pos h]
      simp [updateChild, if_pos h]
    · rw [if_neg h]
      simp only [updateChild, if_neg h, List.get?_cons_succ]
      exact ih

theorem updateChild_length (part : List Char) (f : Node → Node) (cs : List Node) :
    cs.length ≤ (updateChild part f cs).length ∧
      (updateChild part f cs).length ≤ cs.length + 1 := by
  induction cs with
  | nil => simp [updateChild]
  | cons c tl ih =>
    simp only [updateChild]
    split
    · simp
    · simp only [List.length_cons]
      omega

theorem findChild_eq_get?_childIdx (cs : List Node) (part : List Char) :
    findChild cs part = cs.get? (childIdx cs part) := by
  induction cs with
  | nil => rfl
  | cons c tl ih =>
    rw [findChild_cons, childIdx_cons]
    by_cases h : c.name = part
    · simp [h]
    · simp only [if_neg h, List.get?_cons_succ]
      exact ih

@[simp] theorem Node.withValue_mk (nm vl v : List Char) (cs : List Node) :
    (Node.mk nm vl cs).withValue v = Node.mk nm v cs := rfl

@[simp] theorem Node.withChildren_mk (nm vl : List Char) (cs cs' : List Node) :
    (Node.mk nm vl cs).withChildren cs' = Node.mk nm vl cs' := rfl

@[simp] theorem Node.withValue_children (n : Node) (v : List Char) :
    (n.withValue v).children = n.children := by cases n; rfl

@[simp] theorem nodeAt_nil (n : Node) : nodeAt n [] = some n := rfl

theorem nodeAt_cons_some {n c : Node} {j : Nat} (q : List Nat)
    (hget : n.children.get? j = some c) : nodeAt n (j :: q) = nodeAt c q := by
  have hstep : nodeAt n (j :: q) =
      match n.children.get? j with
      | some c => nodeAt c q
      | none => none := rfl
  rw [hstep, hget]

theorem nodeAt_cons_none {n : Node} {j : Nat} (q : List Nat)
    (hget : n.children.get? j = none) : nodeAt n (j :: q) = none := by
  have hstep : nodeAt n (j :: q) =
      match n.children.get? j with
      | some c => nodeAt c q
      | none => none := rfl
  rw [hstep, hget]

theorem nodeAt_withValue (c : Node) (v : List Char) (j : Nat) (q : List Nat) :
    nodeAt (c.withValue v) (j :: q) = nodeAt c (j :: q) := by
  cases c; rfl

theorem childTarget_eq (n : Node) (part : List Char) :
    childTarget n part = (findChild n.children part).getD (Node.mk part [] []) := by
  unfold childTarget
  cases findChild n.children part
  · rfl
  · rfl

/-- C10: `Set` is frame-preserving: (1) every node present before the call
is still present at the same index path afterwards, with the same name,
with the same value unless it is the addressed node, and with a children
list that only grew, by at most one; (2) every node the call creates, other
than the addressed node, has the empty value; (3) the addressed node ends
with the assigned value. Positions are preserved, so the relative order of
pre-existing children is unchanged and new children sit after them. -/
theorem C10_set_frame (n : Node) (parts : List (List Char)) (v : List Char) :
    (∀ q b, nodeAt n q = some b →
      ∃ a, nodeAt (setParts v n parts) q = some a ∧
        a.name = b.name ∧
        (setAddr n parts ≠ some q → a.value = b.value) ∧
        b.children.length ≤ a.children.length ∧
        a.children.length ≤ b.children.length + 1) ∧
    (∀ q a, nodeAt (setParts v n parts) q = some a → nodeAt n q = none →
      setAddr n parts ≠ some q → a.value = []) ∧
    (∀ q a, nodeAt (setParts v n parts) q = some a →
      setAddr n parts = some q → a.value = v) := by
  induction n, parts using setParts.induct v with
  | case1 n =>
    refine ⟨?_, ?_, ?_⟩
    · intro q b hb
      exact ⟨b, hb, rfl, fun _ => rfl, le_refl _, by omega⟩
    · intro q a ha hnone _
      rw [show setParts v n [] = n from rfl] at ha
      rw [ha] at hnone
      cases hnone
    · intro q a _ haddr
      rw [show setAddr n [] = none from rfl] at haddr
      cases haddr
  | case2 n =>
    refine ⟨?_, ?_, ?_⟩
    · intro q b hb
      rw [show setParts v n [[]] = n from by simp [setParts]]
      exact ⟨b, hb, rfl, fun _ => rfl, le_refl _, by omega⟩
    · intro q a ha hnone _
      rw [show setParts v n [[]] = n from by simp [setParts]] at ha
      rw [ha] at hnone
      cases hnone
    · intro q a _ haddr
      rw [show setAddr n [[]] = none from by simp [setAddr]] at haddr
      cases haddr
  | case3 n part hp =>
    cases n with
    | mk nm vl cs =>
      rw [show setParts v (Node.mk nm vl cs) [part] =
        Node.mk nm vl (updateChild part (fun c => c.withValue v) cs) from by
          simp [setParts, if_neg hp]]
      rw [show setAddr (Node.mk nm vl cs) [part] = some [childIdx cs part] from by
        simp [setAddr, if_neg hp]]
      refine ⟨?_, ?_, ?_⟩
      · intro q b hb
        match q with
        | [] =>
          rw [nodeAt_nil] at hb
          injection hb with hb
          subst hb
          refine ⟨_, nodeAt_nil _, rfl, fun _ => rfl, ?_, ?_⟩
          · exact (updateChild_length part _ cs).1
          · exact (updateChild_length part _ cs).2
        | j :: q' =>
          cases hget : cs.get? j with
          | none =>
            rw [nodeAt_cons_none q' (by simpa using hget)] at hb
            cases hb
          | some cj =>
            rw [nodeAt_cons_some q' (by simpa using hget)] at hb
            by_cases hij : j = childIdx cs part
            · subst hij
              have hu := updateChild_get?_childIdx part (fun c => c.withValue v) cs
              rw [hget] at hu
              match q' with
              | [] =>
                rw [nodeAt_nil] at hb
                injection hb with hb
                subst hb
                refine ⟨cj.withValue v,
                  by rw [nodeAt_cons_some [] (by simpa using hu), nodeAt_nil], by simp,
                  ?_, by simp, by simp⟩
                intro hne
                exact absurd rfl hne
              | j' :: q'' =>
                refine ⟨b, ?_, rfl, fun _ => rfl, le_refl _, by omega⟩
                rw [nodeAt_cons_some (j' :: q'') (by simpa using hu),
                  nodeAt_withValue]
                exact hb
            · refine ⟨b, ?_, rfl, fun _ => rfl, le_refl _, by omega⟩
              rw [nodeAt_cons_some q' (by
                simpa using (updateChild_get?_of_ne part _ cs j hij).trans hget)]
              exact hb
      · intro q a ha hnone hne
        match q with
        | [] => simp at hnone
        | j :: q' =>
          cases hget : cs.get? j with
          | some cj =>
            rw [nodeAt_cons_some q' (by simpa using hget)] at hnone
            by_cases hij : j = childIdx cs part
            · subst hij
              have hu := updateChild_get?_childIdx part (fun c => c.withValue v) cs
              rw [hget] at hu
              rw [nodeAt_cons_some q' (by simpa using hu)] at ha
              match q' with
              | [] => simp at hnone
              | j' :: q'' =>
                rw [nodeAt_withValue] at ha
                rw [ha] at hnone
                cases hnone
            · rw [nodeAt_cons_some q' (by
                simpa using (updateChild_get?_of_ne part _ cs j hij).trans hget)] at ha
              rw [ha] at hnone
              cases hnone
          | none =>
            by_cases hij : j = childIdx cs part
            · subst hij
              have hu := updateChild_get?_childIdx part (fun c => c.withValue v) cs
              rw [hget] at hu
              rw [nodeAt_cons_some q' (by simpa using hu)] at ha
              match q' with
              | [] =>
                exact absurd rfl hne
              | j' :: q'' =>
                rw [show nodeAt (Node.mk part v []) (j' :: q'') = none
                  from rfl] at ha
                cases ha
            · rw [nodeAt_cons_none q' (by
                simpa using (updateChild_get?_of_ne part _ cs j hij).trans hget)] at ha
              cases ha
      · intro q a ha haddr
        injection haddr with haddr
        subst haddr
        have hu := updateChild_get?_childIdx part (fun c => c.withValue v) cs
        rw [nodeAt_cons_some [] (by simpa using hu), nodeAt_nil] at ha
        injection ha with ha
        subst ha
        simp
  | case4 n rest hne ih =>
    obtain ⟨r, rs, hrw⟩ : ∃ r rs, rest = r :: rs := by
      cases rest
      · exact (hne rfl).elim
      · exact ⟨_, _, rfl⟩
    subst hrw
    rw [show setParts v n ([] :: r :: rs) = setParts v n (r :: rs) from by
      simp [setParts]]
    rw [show setAddr n ([] :: r :: rs) = setAddr n (r :: rs) from by
      simp [setAddr]]
    exact ih
  | case5 n part rest hne hp ih =>
    obtain ⟨r, rs, hrw⟩ : ∃ r rs, rest = r :: rs := by
      cases rest
      · exact (hne rfl).elim
      · exact ⟨_, _, rfl⟩
    subst hrw
    cases n with
    | mk nm vl cs =>
      rw [show setParts v (Node.mk nm vl cs) (part :: r :: rs) =
        Node.mk nm vl (updateChild part (fun c => setParts v c (r :: rs)) cs) from by
          simp [setParts, if_neg hp]]
      have haddr_eq : setAddr (Node.mk nm vl cs) (part :: r :: rs) =
          (setAddr ((cs.get? (childIdx cs part)).getD (Node.mk part [] []))
            (r :: rs)).map (childIdx cs part :: ·) := by
        rw [show setAddr (Node.mk nm vl cs) (part :: r :: rs) =
          (setAddr (childTarget (Node.mk nm vl cs) part) (r :: rs)).map
            (childIdx (Node.mk nm vl cs).children part :: ·) from by
              simp [setAddr, if_neg hp]]
        rw [childTarget_eq, findChild_eq_get?_childIdx]
        rfl
      rw [haddr_eq]
      refine ⟨?_, ?_, ?_⟩
      · intro q b hb
        match q with
        | [] =>
          rw [nodeAt_nil] at hb
          injection hb with hb
          subst hb
          refine ⟨_, nodeAt_nil _, rfl, fun _ => rfl, ?_, ?_⟩
          · exact (updateChild_length part _ cs).1
          · exact (updateChild_length part _ cs).2
        | j :: q' =>
          cases hget : cs.get? j with
          | none =>
            rw [nodeAt_cons_none q' (by simpa using hget)] at hb
            cases hb
          | some cj =>
            rw [nodeAt_cons_some q' (by simpa using hget)] at hb
            by_cases hij : j = childIdx cs part
            · subst hij
              have hu := updateChild_get?_childIdx part
                (fun c => setParts v c (r :: rs)) cs
              rw [hget] at hu
              obtain ⟨a, ha, hname, hval, hl1, hl2⟩ := (ih cj).1 q' b hb
              refine ⟨a, ?_, hname, ?_, hl1, hl2⟩
              · rw [nodeAt_cons_some q' (by simpa using hu)]
                exact ha
              · intro hq
                refine hval ?_
                intro hc
                apply hq
                rw [hget]
                simp only [Option.getD_some, hc, Option.map_some']
            · refine ⟨b, ?_, rfl, fun _ => rfl, le_refl _, by omega⟩
              rw [nodeAt_cons_some q' (by
                simpa using (updateChild_get?_of_ne part _ cs j hij).trans hget)]
              exact hb
      · intro q a ha hnone hq
        match q with
        | [] => simp at hnone
        | j :: q' =>
          cases hget : cs.get? j with
          | some cj =>
            rw [nodeAt_cons_some q' (by simpa using hget)] at hnone
            by_cases hij : j = childIdx cs part
            · subst hij
              have hu := updateChild_get?_childIdx part
                (fun c => setParts v c (r :: rs)) cs
              rw [hget] at hu
              rw [nodeAt_cons_some q' (by simpa using hu)] at ha
              refine (ih cj).2.1 q' a ha hnone ?_
              intro hc
              apply hq
              rw [hget]
              simp only [Option.getD_some, hc, Option.map_some']
            · rw [nodeAt_cons_some q' (by
                simpa using (updateChild_get?_of_ne part _ cs j hij).trans hget)] at ha
              rw [ha] at hnone
              cases hnone
          | none =>
            by_cases hij : j = childIdx cs part
            · subst hij
              have hu := updateChild_get?_childIdx part
                (fun c => setParts v c (r :: rs)) cs
              rw [hget] at hu
              rw [nodeAt_cons_some q' (by simpa using hu)] at ha
              have hq' : setAddr (Node.mk part [] []) (r :: rs) ≠ some q' := by
                intro hc
                apply hq
                rw [hget]
                simp only [Option.getD_none, hc, Option.map_some']
              match q' with
              | [] =>
                obtain ⟨a', ha', hname, hval, -, -⟩ :=
                  (ih (Node.mk part [] [])).1 [] (Node.mk part [] []) (nodeAt_nil _)
                rw [ha'] at ha
                injection ha with ha
                subst ha
                have := hval hq'
                simpa using this
              | j' :: q'' =>
                refine (ih (Node.mk part [] [])).2.1 (j' :: q'') a ha ?_ hq'
                rfl
            · rw [nodeAt_cons_none q' (by
                simpa using (updateChild_get?_of_ne part _ cs j hij).trans hget)] at ha
              cases ha
      · intro q a ha haddr
        obtain ⟨q0, haddr0, hq⟩ := Option.map_eq_some'.mp haddr
        subst hq
        have hu := updateChild_get?_childIdx part
          (fun c => setParts v c (r :: rs)) cs
        rw [nodeAt_cons_some q0 (by rw [Node.children_mk]; exact hu)] at ha
        exact (ih _).2.2 q0 a ha haddr0

/-- C10 (witness): the frame property instantiated at a concrete tree:
setting `"A"` to `"x"` on an empty root addresses index path `[0]`, and the
addressed node carries the assigned value. -/
theorem C10_set_frame_witness :
    (Node.mk ("A").toList ("x").toList []).value = ("x").toList :=
  (C10_set_frame (Node.mk [] [] []) [("A").toList] ("x").toList).2.2
    [0] (Node.mk ("A").toList ("x").toList []) (by decide) (by decide)

/-- C2 (witness): the amended accessor characterization at concrete
nodes. -/
theorem C2_accessors_amended_witness :
    Node.Int (some (Node.mk ("A").toList (" 5 ").toList [])) 0 = 5 ∧
    Node.Float (some (Node.mk ("A").toList (" x ").toList [])) 7 = 7 ∧
    Node.Bool (some (Node.mk ("A").toList ("  ").toList [])) true = true :=
  ⟨(C2_accessors_amended (Node.mk ("A").toList (" 5 ").toList []) [] false 0 0).2.2.2.2.1
      5 (by decide),
    (C2_accessors_amended (Node.mk ("A").toList (" x ").toList []) [] false 0 7).2.2.2.2.2.2.2
      (by decide),
    ((C2_accessors_amended (Node.mk ("A").toList ("  ").toList []) [] true 0 0).2.2.2.1
      (by decide)).1⟩


/-! ### Lemmas about splitting and joining lines (towards claim C1) -/

theorem splitOnChar_ne_nil (sep : Char) (s : List Char) : splitOnChar sep s ≠ [] := by
  cases s with
  | nil => simp [splitOnChar]
  | cons c rest =>
    simp only [splitOnChar]
    split
    · simp
    · split
      · simp
      · simp

theorem splitOnChar_not_contains (sep : Char) (s : List Char) :
    ∀ p ∈ splitOnChar sep s, p.contains sep = false := by
  induction s with
  | nil =>
    intro p hp
    simp only [splitOnChar, List.mem_singleton] at hp
    subst hp
    rfl
  | cons c rest ih =>
    intro p hp
    simp only [splitOnChar] at hp
    by_cases h : c = sep
    · rw [if_pos h] at hp
      rcases List.mem_cons.mp hp with hp | hp
      · subst hp; rfl
      · exact ih p hp
    · rw [if_neg h] at hp
      cases hsplit : splitOnChar sep rest with
      | nil => exact absurd hsplit (splitOnChar_ne_nil sep rest)
      | cons piece pieces =>
        rw [hsplit] at hp
        rcases List.mem_cons.mp hp with hp | hp
        · subst hp
          have hpiece : piece.contains sep = false := by
            refine ih piece ?_
            rw [hsplit]
            exact List.mem_cons_self _ _
          simp only [List.contains_cons, hpiece, Bool.or_false,
            beq_eq_false_iff_ne]
          exact fun he => h he.symm
        · refine ih p ?_
          rw [hsplit]
          exact List.mem_cons_of_mem _ hp

theorem mem_of_mem_splitOnChar (sep : Char) (s : List Char) :
    ∀ p ∈ splitOnChar sep s, ∀ x ∈ p, x ∈ s := by
  induction s with
  | nil =>
    intro p hp x hx
    simp only [splitOnChar, List.mem_singleton] at hp
    subst hp
    simp at hx
  | cons c rest ih =>
    intro p hp x hx
    simp only [splitOnChar] at hp
    by_cases h : c = sep
    · rw [if_pos h] at hp
      rcases List.mem_cons.mp hp with hp | hp
      · subst hp; simp at hx
      · exact List.mem_cons_of_mem _ (ih p hp x hx)
    · rw [if_neg h] at hp
      cases hsplit : splitOnChar sep rest with
      | nil => exact absurd hsplit (splitOnChar_ne_nil sep rest)
      | cons piece pieces =>
        rw [hsplit] at hp
        rcases List.mem_cons.mp hp with hp | hp
        · subst hp
          rcases List.mem_cons.mp hx with hx | hx
          · subst hx; exact List.mem_cons_self _ _
          · refine List.mem_cons_of_mem _ (ih piece ?_ x hx)
            rw [hsplit]
            exact List.mem_cons_self _ _
        · exact List.mem_cons_of_mem _
            (ih p (by rw [hsplit]; exact List.mem_cons_of_mem _ hp) x hx)

theorem splitOnChar_append_cons (sep : Char) (l rest : List Char)
    (hl : l.contains sep = false) :
    splitOnChar sep (l ++ sep :: rest) = l :: splitOnChar sep rest := by
  induction l with
  | nil => simp [splitOnChar]
  | cons c l' ih =>
    simp only [List.contains_cons, Bool.or_eq_false_iff] at hl
    have hc : ¬c = sep := fun he => absurd he.symm (by simpa using hl.1)
    have hstep : (c :: l') ++ sep :: rest = c :: (l' ++ sep :: rest) := rfl
    rw [hstep]
    simp only [splitOnChar, if_neg hc]
    rw [ih hl.2]

theorem interChar_splitOnChar (sep : Char) (s : List Char) :
    interChar sep (splitOnChar sep s) = s := by
  induction s with
  | nil => rfl
  | cons c rest ih =>
    simp only [splitOnChar]
    by_cases h : c = sep
    · rw [if_pos h]
      cases hsplit : splitOnChar sep rest with
      | nil => exact absurd hsplit (splitOnChar_ne_nil sep rest)
      | cons piece pieces =>
        rw [hsplit] at ih
        simp only [interChar]
        rw [ih, h]
        rfl
    · rw [if_neg h]
      cases hsplit : splitOnChar sep rest with
      | nil => exact absurd hsplit (splitOnChar_ne_nil sep rest)
      | cons piece pieces =>
        rw [hsplit] at ih
        cases pieces with
        | nil =>
          simp only [interChar] at ih ⊢
          rw [ih]
        | cons p2 ps =>
          simp only [interChar] at ih ⊢
          rw [List.cons_append, ih]

theorem replaceCRLF_eq_self (s : List Char) (h : s.contains '\r' = false) :
    replaceCRLF s = s := by
  induction s using replaceCRLF.induct with
  | case1 rest => simp [List.contains_cons] at h
  | case2 c rest hne ih =>
    simp only [List.contains_cons, Bool.or_eq_false_iff] at h
    rw [replaceCRLF.eq_def]
    split
    · next heq =>
      injection heq with h1 h2
      exact absurd h1.symm (by simpa using h.1)
    · next a b hne2 heq =>
      injection heq with h1 h2
      subst h1
      subst h2
      rw [ih h.2]
    · next heq => cases heq
  | case3 => rfl

theorem map_cr_eq_self (s : List Char) (h : s.contains '\r' = false) :
    s.map (fun c => if c == '\r' then '\n' else c) = s := by
  induction s with
  | nil => rfl
  | cons c rest ih =>
    simp only [List.contains_cons, Bool.or_eq_false_iff] at h
    have hc : ¬c = '\r' := fun he => absurd he.symm (by simpa using h.1)
    simp only [List.map_cons]
    rw [if_neg (by simpa using hc), ih h.2]

theorem joinLines_nil : joinLines [] = [] := rfl

theorem joinLines_cons (l : List Char) (L : List (List Char)) :
    joinLines (l :: L) = l ++ '\n' :: joinLines L := by
  simp [joinLines]

theorem joinLines_append (A B : List (List Char)) :
    joinLines (A ++ B) = joinLines A ++ joinLines B := by
  simp [joinLines]

theorem splitOnChar_joinLines (L : List (List Char))
    (h : ∀ l ∈ L, l.contains '\n' = false) :
    splitOnChar '\n' (joinLines L) = L ++ [[]] := by
  induction L with
  | nil => rfl
  | cons l L' ih =>
    rw [joinLines_cons, splitOnChar_append_cons '\n' l (joinLines L')
      (h l (List.mem_cons_self _ _))]
    rw [ih (fun x hx => h x (List.mem_cons_of_mem _ hx))]
    rfl


mutual

theorem serializeNode_eq_joinLines (n : Node) (d : Nat) :
    serializeNode n d = joinLines (serLines n d) := by
  cases n with
  | mk nm v cs =>
    have hch := serializeChildrenAt_eq_joinLines cs (d + 1)
    by_cases hnl : v.contains '\n' = true
    · have hv : v ≠ [] := by
        intro hv
        rw [hv] at hnl
        cases hnl
      simp only [serializeNode, serLines, if_pos hnl, if_neg hv,
        if_neg (fun hand : v ≠ [] ∧ ¬v.contains '\n' = true => hand.2 hnl)]
      rw [if_pos hv, hch]
      simp only [joinLines_cons, joinLines_append, List.append_nil]
      simp only [joinLines, List.map_map, List.append_assoc, List.cons_append,
        List.nil_append]
      congr 3
      exact congrArg
        (fun L => L ++ (List.map (fun x => x ++ ['\n']) (serLinesList cs (d + 1))).flatten)
        (congrArg List.flatten (List.map_congr_left (fun p _ => by
          simp [Function.comp, List.append_assoc])))
    · by_cases hv : v = []
      · subst hv
        simp only [serializeNode, serLines]
        rw [if_neg (by simp), if_neg (by simp [hnl]), hch]
        simp [joinLines_cons, joinLines_append, List.append_assoc]
      · simp only [serializeNode, serLines]
        rw [if_pos hv, if_neg hnl, if_pos ⟨hv, hnl⟩, if_neg hnl, hch]
        simp [joinLines_cons, joinLines_append, List.append_assoc]

theorem serializeChildrenAt_eq_joinLines (cs : List Node) (d : Nat) :
    serializeChildrenAt cs d = joinLines (serLinesList cs d) := by
  cases cs with
  | nil => rfl
  | cons c tl =>
    simp only [serializeChildrenAt, serLinesList, joinLines_append]
    rw [serializeNode_eq_joinLines c d, serializeChildrenAt_eq_joinLines tl d]

end

theorem Serialize_eq_joinLines (root : Node) :
    Serialize root = joinLines (serLinesList root.children 0) := by
  unfold Serialize
  exact serializeChildrenAt_eq_joinLines root.children 0


/-! ### Character- and line-level facts about serialized output -/

theorem contains_false_iff (l : List Char) (a : Char) :
    l.contains a = false ↔ a ∉ l := by
  induction l with
  | nil => simp
  | cons c tl ih =>
    simp only [List.contains_cons, Bool.or_eq_false_iff, beq_eq_false_iff_ne,
      List.mem_cons, ih]
    constructor
    · rintro ⟨h1, h2⟩ (h | h)
      · exact h1 h
      · exact h2 h
    · intro h
      exact ⟨fun he => h (Or.inl he), fun he => h (Or.inr he)⟩

theorem validChar_ne (c x : Char) (h : isValidNameChar c = true)
    (hx : isValidNameChar x = false) : c ≠ x := fun he => by
  rw [he] at h
  rw [h] at hx
  cases hx

theorem validName_head (nm : List Char) (h : validName nm = true) :
    ∃ c rest, nm = c :: rest ∧ isValidNameChar c = true := by
  cases nm with
  | nil => simp [validName] at h
  | cons c rest =>
    simp only [validName, List.isEmpty_cons, Bool.not_false, Bool.true_and,
      List.all_cons, Bool.and_eq_true] at h
    exact ⟨c, rest, rfl, h.1⟩

theorem validName_mem (nm : List Char) (h : validName nm = true) :
    ∀ c ∈ nm, isValidNameChar c = true := by
  intro c hc
  simp only [validName, Bool.and_eq_true, List.all_eq_true] at h
  exact h.2 c hc

theorem trimSpace_isEmpty_false (l : List Char) (x : Char) (hx : x ∈ l)
    (hns : isGoSpace x = false) : (trimSpace l).isEmpty = false := by
  have hne : trimSpace l ≠ [] := by
    intro htrim
    unfold trimSpace at htrim
    rw [List.reverse_eq_nil_iff] at htrim
    rw [List.dropWhile_eq_nil_iff] at htrim
    have h2 : ∀ y ∈ l.dropWhile isGoSpace, isGoSpace y = true := fun y hy =>
      htrim y (List.mem_reverse.mpr hy)
    have h3 : ∀ y ∈ l, isGoSpace y = true := by
      intro y hy
      rw [← @List.takeWhile_append_dropWhile _ isGoSpace l] at hy
      rcases List.mem_append.mp hy with hy | hy
      · exact List.mem_takeWhile_imp hy
      · exact h2 y hy
    rw [h3 x hx] at hns
    cases hns
  cases htl : trimSpace l with
  | nil => exact absurd htl hne
  | cons a b => rfl

theorem readDepth_indent_append (m : Nat) (s : List Char) :
    readDepth (indentSp m ++ s) = m + readDepth s := by
  induction m with
  | zero => simp [indentSp]
  | succ m ih =>
    have hstep : indentSp (m + 1) ++ s = ' ' :: (indentSp m ++ s) := by
      simp [indentSp, List.replicate_succ]
    rw [hstep]
    simp only [readDepth, List.takeWhile]
    rw [show ((' ' : Char) == '\t' || (' ' : Char) == ' ') = true from by decide]
    simp only [List.length_cons]
    have := ih
    simp only [readDepth] at this
    omega

theorem readDepth_cons_nonws (c : Char) (s : List Char)
    (h : (c == '\t' || c == ' ') = false) : readDepth (c :: s) = 0 := by
  simp [readDepth, List.takeWhile, h]

theorem drop_indentSp (m : Nat) (s : List Char) : (indentSp m ++ s).drop m = s := by
  have h1 := List.drop_left (indentSp m) s
  rwa [show (indentSp m).length = m from by simp [indentSp]] at h1

theorem dropWhile_ws_indent (m : Nat) (s : List Char) :
    (indentSp m ++ s).dropWhile (fun c => c == ' ' || c == '\t') =
      s.dropWhile (fun c => c == ' ' || c == '\t') := by
  induction m with
  | zero => simp [indentSp]
  | succ m ih =>
    have hstep : indentSp (m + 1) ++ s = ' ' :: (indentSp m ++ s) := by
      simp [indentSp, List.replicate_succ]
    rw [hstep, List.dropWhile_cons]
    rw [show ((' ' : Char) == ' ' || (' ' : Char) == '\t') = true from by decide]
    simp only [if_pos rfl]
    exact ih

theorem dropWhile_ws_nonws (c : Char) (s : List Char)
    (h : (c == ' ' || c == '\t') = false) :
    (c :: s).dropWhile (fun c => c == ' ' || c == '\t') = c :: s := by
  rw [List.dropWhile_cons, h]
  simp

theorem startsWithSlashSlash_false (s : List Char)
    (h : ∀ c, s.head? = some c → c ≠ '/') : startsWithSlashSlash s = false := by
  cases s with
  | nil => rfl
  | cons c rest =>
    rw [startsWithSlashSlash.eq_def]
    split
    · next tail heq =>
      injection heq with h1 h2
      exact absurd h1 (h c rfl)
    · rfl

theorem mem_joinLines (L : List (List Char)) (x : Char) (hx : x ∈ joinLines L) :
    x = '\n' ∨ ∃ l ∈ L, x ∈ l := by
  induction L with
  | nil => simp [joinLines] at hx
  | cons l L' ih =>
    rw [joinLines_cons] at hx
    rcases List.mem_append.mp hx with hx | hx
    · exact Or.inr ⟨l, List.mem_cons_self _ _, hx⟩
    · rcases List.mem_cons.mp hx with hx | hx
      · exact Or.inl hx
      · rcases ih hx with hx | ⟨l', hl', hx⟩
        · exact Or.inl hx
        · exact Or.inr ⟨l', List.mem_cons_of_mem _ hl', hx⟩

theorem joinLines_contains_cr (L : List (List Char))
    (h : ∀ l ∈ L, l.contains '\r' = false) :
    (joinLines L).contains '\r' = false := by
  rw [contains_false_iff]
  intro hmem
  rcases mem_joinLines L '\r' hmem with hx | ⟨l, hl, hx⟩
  · cases hx
  · exact absurd hx ((contains_false_iff l '\r').mp (h l hl))

theorem normalize_joinLines (L : List (List Char))
    (h : ∀ l ∈ L,
      l.contains '\n' = false ∧ l.contains '\r' = false ∧
      (trimSpace l).isEmpty = false ∧
      startsWithSlashSlash (l.drop (readDepth l)) = false) :
    normalizeLines (joinLines L) = L := by
  unfold normalizeLines
  dsimp only
  rw [replaceCRLF_eq_self _ (joinLines_contains_cr L (fun l hl => (h l hl).2.1))]
  rw [map_cr_eq_self _ (joinLines_contains_cr L (fun l hl => (h l hl).2.1))]
  rw [splitOnChar_joinLines L (fun l hl => (h l hl).1)]
  rw [List.filter_append]
  rw [show List.filter (fun line =>
      !(trimSpace line).isEmpty && !startsWithSlashSlash (line.drop (readDepth line)))
      [([] : List Char)] = [] from by decide]
  rw [List.append_nil]
  rw [List.filter_eq_self]
  intro l hl
  rw [(h l hl).2.2.1, (h l hl).2.2.2]
  rfl


theorem validChar_not_goSpace (c : Char) (h : isValidNameChar c = true) :
    isGoSpace c = false := by
  unfold isGoSpace
  have h1 := validChar_ne c ' ' h (by decide)
  have h2 := validChar_ne c '\t' h (by decide)
  have h3 := validChar_ne c '\n' h (by decide)
  have h4 := validChar_ne c '\x0B' h (by decide)
  have h5 := validChar_ne c '\x0C' h (by decide)
  have h6 := validChar_ne c '\r' h (by decide)
  simp [beq_eq_false_iff_ne, h1, h2, h3, h4, h5, h6]

theorem validChar_not_tabspace (c : Char) (h : isValidNameChar c = true) :
    (c == '\t' || c == ' ') = false := by
  have h1 := validChar_ne c ' ' h (by decide)
  have h2 := validChar_ne c '\t' h (by decide)
  simp [beq_eq_false_iff_ne, h1, h2]

theorem not_mem_indentSp (m : Nat) (x : Char) (hx : x ≠ ' ') : x ∉ indentSp m := by
  simp only [indentSp, List.mem_replicate]
  rintro ⟨-, h⟩
  exact hx h

theorem contains_append_false (a b : List Char) (x : Char)
    (ha : x ∉ a) (hb : x ∉ b) : (a ++ b).contains x = false := by
  rw [contains_false_iff]
  intro hmem
  rcases List.mem_append.mp hmem with hmem | hmem
  · exact ha hmem
  · exact hb hmem

/-- The conditions that make a line survive normalization unchanged. -/
theorem serLine_conditions (l : List Char)
    (h1 : l.contains '\n' = false) (h2 : l.contains '\r' = false)
    (h3 : (trimSpace l).isEmpty = false)
    (h4 : startsWithSlashSlash (l.drop (readDepth l)) = false) :
    l.contains '\n' = false ∧ l.contains '\r' = false ∧
      (trimSpace l).isEmpty = false ∧
      startsWithSlashSlash (l.drop (readDepth l)) = false :=
  ⟨h1, h2, h3, h4⟩

theorem headLine_good (nm tail : List Char) (d : Nat)
    (hnm : validName nm = true)
    (htail_nl : tail.contains '\n' = false)
    (htail_cr : tail.contains '\r' = false) :
    (indentSp (d * 2) ++ nm ++ tail).contains '\n' = false ∧
      (indentSp (d * 2) ++ nm ++ tail).contains '\r' = false ∧
      (trimSpace (indentSp (d * 2) ++ nm ++ tail)).isEmpty = false ∧
      startsWithSlashSlash
        ((indentSp (d * 2) ++ nm ++ tail).drop
          (readDepth (indentSp (d * 2) ++ nm ++ tail))) = false := by
  obtain ⟨c0, nmrest, hnmeq, hc0⟩ := validName_head nm hnm
  have hnm_nl : ('\n' : Char) ∉ nm := fun hmem =>
    validChar_ne '\n' '\n' (validName_mem nm hnm _ hmem) (by decide) rfl
  have hnm_cr : ('\r' : Char) ∉ nm := fun hmem =>
    validChar_ne '\r' '\r' (validName_mem nm hnm _ hmem) (by decide) rfl
  have hassoc : indentSp (d * 2) ++ nm ++ tail = indentSp (d * 2) ++ (nm ++ tail) := by
    rw [List.append_assoc]
  refine ⟨?_, ?_, ?_, ?_⟩
  · rw [hassoc]
    refine contains_append_false _ _ _ (not_mem_indentSp _ _ (by decide)) ?_
    intro hmem
    rcases List.mem_append.mp hmem with hmem | hmem
    · exact hnm_nl hmem
    · exact absurd hmem ((contains_false_iff _ _).mp htail_nl)
  · rw [hassoc]
    refine contains_append_false _ _ _ (not_mem_indentSp _ _ (by decide)) ?_
    intro hmem
    rcases List.mem_append.mp hmem with hmem | hmem
    · exact hnm_cr hmem
    · exact absurd hmem ((contains_false_iff _ _).mp htail_cr)
  · refine trimSpace_isEmpty_false _ c0 ?_ (validChar_not_goSpace c0 hc0)
    rw [hassoc, hnmeq]
    simp
  · rw [hassoc, readDepth_indent_append]
    rw [hnmeq, List.cons_append]
    rw [readDepth_cons_nonws c0 _ (validChar_not_tabspace c0 hc0)]
    rw [Nat.add_zero, drop_indentSp]
    refine startsWithSlashSlash_false _ ?_
    intro c hc
    simp only [List.cons_append, List.head?_cons, Option.some.injEq] at hc
    subst hc
    exact validChar_ne c0 '/' hc0 (by decide)

theorem pieceLine_good (piece : List Char) (d : Nat)
    (hnl : piece.contains '\n' = false) (hcr : piece.contains '\r' = false) :
    (indentSp (d * 2) ++ ':' :: ' ' :: piece).contains '\n' = false ∧
      (indentSp (d * 2) ++ ':' :: ' ' :: piece).contains '\r' = false ∧
      (trimSpace (indentSp (d * 2) ++ ':' :: ' ' :: piece)).isEmpty = false ∧
      startsWithSlashSlash
        ((indentSp (d * 2) ++ ':' :: ' ' :: piece).drop
          (readDepth (indentSp (d * 2) ++ ':' :: ' ' :: piece))) = false := by
  refine ⟨?_, ?_, ?_, ?_⟩
  · refine contains_append_false _ _ _ (not_mem_indentSp _ _ (by decide)) ?_
    intro hmem
    rcases List.mem_cons.mp hmem with hmem | hmem
    · cases hmem
    · rcases List.mem_cons.mp hmem with hmem | hmem
      · cases hmem
      · exact absurd hmem ((contains_false_iff _ _).mp hnl)
  · refine contains_append_false _ _ _ (not_mem_indentSp _ _ (by decide)) ?_
    intro hmem
    rcases List.mem_cons.mp hmem with hmem | hmem
    · cases hmem
    · rcases List.mem_cons.mp hmem with hmem | hmem
      · cases hmem
      · exact absurd hmem ((contains_false_iff _ _).mp hcr)
  · refine trimSpace_isEmpty_false _ ':' ?_ (by decide)
    simp
  · rw [readDepth_indent_append, readDepth_cons_nonws ':' _ (by decide),
      Nat.add_zero, drop_indentSp]
    refine startsWithSlashSlash_false _ ?_
    intro c hc
    simp only [List.head?_cons, Option.some.injEq] at hc
    subst hc
    decide


mutual

theorem serLines_good (n : Node) (d : Nat) (hc : cleanNode n = true) :
    ∀ l ∈ serLines n d,
      l.contains '\n' = false ∧ l.contains '\r' = false ∧
      (trimSpace l).isEmpty = false ∧
      startsWithSlashSlash (l.drop (readDepth l)) = false := by
  cases n with
  | mk nm v cs =>
    have hparts : validName nm = true ∧ cleanValue v = true ∧ cleanList cs = true := by
      simpa [cleanNode, Bool.and_eq_true, and_assoc] using hc
    have hvcr : v.contains '\r' = false := by
      have := hparts.2.1
      simp only [cleanValue, Bool.and_eq_true, Bool.not_eq_true'] at this
      exact this.1
    intro l hl
    simp only [serLines] at hl
    rcases List.mem_cons.mp hl with hl | hl
    · subst hl
      by_cases hsingle : v ≠ [] ∧ ¬v.contains '\n' = true
      · rw [if_pos hsingle]
        refine headLine_good nm (':' :: ' ' :: v) d hparts.1 ?_ ?_
        · have hvnl : v.contains '\n' = false := by
            cases hnl : v.contains '\n'
            · rfl
            · exact absurd hnl hsingle.2
          simp only [List.contains_cons]
          simp only [show (('\n' : Char) == ':') = false from by decide,
            show (('\n' : Char) == ' ') = false from by decide, hvnl]
          rfl
        · simp only [List.contains_cons]
          simp only [show (('\r' : Char) == ':') = false from by decide,
            show (('\r' : Char) == ' ') = false from by decide, hvcr]
          rfl
      · rw [if_neg hsingle]
        have := headLine_good nm [] d hparts.1 (by rfl) (by rfl)
        simpa using this
    · rcases List.mem_append.mp hl with hl | hl
      · by_cases hnl : v.contains '\n' = true
        · rw [if_pos hnl] at hl
          obtain ⟨piece, hpiece, hpeq⟩ := List.mem_map.mp hl
          subst hpeq
          refine pieceLine_good piece (d + 1) ?_ ?_
          · exact splitOnChar_not_contains '\n' v piece hpiece
          · rw [contains_false_iff]
            intro hmem
            exact absurd (mem_of_mem_splitOnChar '\n' v piece hpiece '\r' hmem)
              ((contains_false_iff _ _).mp hvcr)
        · rw [if_neg hnl] at hl
          simp at hl
      · exact serLinesList_good cs (d + 1) hparts.2.2 l hl

theorem serLinesList_good (cs : List Node) (d : Nat) (hc : cleanList cs = true) :
    ∀ l ∈ serLinesList cs d,
      l.contains '\n' = false ∧ l.contains '\r' = false ∧
      (trimSpace l).isEmpty = false ∧
      startsWithSlashSlash (l.drop (readDepth l)) = false := by
  cases cs with
  | nil => intro l hl; simp [serLinesList] at hl
  | cons c tl =>
    have hparts : cleanNode c = true ∧ cleanList tl = true := by
      simpa [cleanList, Bool.and_eq_true] using hc
    intro l hl
    simp only [serLinesList] at hl
    rcases List.mem_append.mp hl with hl | hl
    · exact serLines_good c d hparts.1 l hl
    · exact serLinesList_good tl d hparts.2 l hl

end


/-! ### Cleanliness invariants of the parser -/

theorem mem_of_mem_rtrimSpaces (s : List Char) (x : Char) (hx : x ∈ rtrimSpaces s) :
    x ∈ s := by
  unfold rtrimSpaces at hx
  rw [List.mem_reverse] at hx
  have h2 := (List.dropWhile_sublist (fun x => x == ' ')).mem hx
  exact List.mem_reverse.mp h2

theorem contains_false_of_forall_mem (a b : List Char) (c : Char)
    (sub : ∀ x ∈ a, x ∈ b) (hb : b.contains c = false) : a.contains c = false := by
  rw [contains_false_iff]
  intro hmem
  exact absurd (sub c hmem) ((contains_false_iff _ _).mp hb)

theorem head_ne_of_not_contains (v : List Char) (c : Char)
    (h : v.contains c = false) : v.head? ≠ some c := by
  cases v with
  | nil => simp
  | cons a rest =>
    simp only [List.head?_cons, ne_eq, Option.some.injEq]
    intro he
    subst he
    rw [contains_false_iff] at h
    exact h (List.mem_cons_self _ _)

theorem cleanValue_of_no_nl_cr (v : List Char) (hnl : v.contains '\n' = false)
    (hcr : v.contains '\r' = false) : cleanValue v = true := by
  simp only [cleanValue, Bool.and_eq_true, Bool.not_eq_true']
  refine ⟨hcr, ?_⟩
  have := head_ne_of_not_contains v '\n' hnl
  simp only [bne_iff_ne, ne_eq]
  exact this

theorem cleanList_append (a b : List Node) :
    cleanList (a ++ b) = (cleanList a && cleanList b) := by
  induction a with
  | nil => simp [cleanList]
  | cons c tl ih =>
    simp only [List.cons_append, cleanList, List.append_eq, ih, Bool.and_assoc]

theorem cleanNode_addChild (n c : Node) (hn : cleanNode n = true)
    (hc : cleanNode c = true) : cleanNode (n.addChild c) = true := by
  cases n with
  | mk nm v cs =>
    simp only [Node.addChild, cleanNode, Bool.and_eq_true] at hn ⊢
    refine ⟨hn.1, ?_⟩
    rw [cleanList_append]
    simp only [Bool.and_eq_true]
    refine ⟨hn.2, ?_⟩
    simp [cleanList, hc]

theorem cleanNode_withValue (n : Node) (v : List Char) (hn : cleanNode n = true)
    (hv : cleanValue v = true) : cleanNode (n.withValue v) = true := by
  cases n with
  | mk nm vl cs =>
    simp only [Node.withValue_mk, cleanNode, Bool.and_eq_true] at hn ⊢
    exact ⟨⟨hn.1.1, hv⟩, hn.2⟩

theorem cleanValue_append_cont (value cont : List Char)
    (hv : cleanValue value = true) (hcontnl : cont.contains '\n' = false)
    (hcontcr : cont.contains '\r' = false) :
    cleanValue ((if value ≠ [] then value ++ ['\n'] else value) ++ cont) = true := by
  simp only [cleanValue, Bool.and_eq_true, Bool.not_eq_true', bne_iff_ne, ne_eq] at hv ⊢
  by_cases hve : value = []
  · subst hve
    rw [if_neg (by simp)]
    refine ⟨hcontcr, ?_⟩
    have := head_ne_of_not_contains cont '\n' hcontnl
    simpa using this
  · rw [if_pos hve]
    obtain ⟨c0, vrest, hveq⟩ : ∃ c0 vrest, value = c0 :: vrest := by
      cases value
      · exact absurd rfl hve
      · exact ⟨_, _, rfl⟩
    constructor
    · rw [contains_false_iff]
      intro hmem
      rcases List.mem_append.mp hmem with hmem | hmem
      · rcases List.mem_append.mp hmem with hmem | hmem
        · exact absurd hmem ((contains_false_iff _ _).mp hv.1)
        · simp at hmem
      · exact absurd hmem ((contains_false_iff _ _).mp hcontcr)
    · rw [hveq]
      simp only [List.cons_append, List.head?_cons, Option.some.injEq]
      intro he
      subst he
      rw [hveq] at hv
      simpa using hv.2

theorem parseValue_sub (line : List Char) (pos : Nat) (v : List Char) (p : Nat)
    (f : Bool) (h : parseValue line pos = .ok (v, p, f)) : ∀ x ∈ v, x ∈ line := by
  unfold parseValue at h
  split at h
  · injection h with h1
    injection h1 with h1 h2
    subst h1
    intro x hx
    simp at hx
  · split at h
    · injection h with h1
      injection h1 with h1 h2
      subst h1
      intro x hx
      have hx1 := mem_of_mem_rtrimSpaces _ x hx
      have hx2 := (List.take_sublist _ _).mem hx1
      exact (List.drop_sublist _ _).mem hx2
    · dsimp only at h
      split at h
      · injection h with h1
        injection h1 with h1 h2
        subst h1
        intro x hx
        simp at hx
      · split at h
        · split at h
          · cases h
          · injection h with h1
            injection h1 with h1 h2
            subst h1
            intro x hx
            have hx2 := (List.take_sublist _ _).mem hx
            exact (List.drop_sublist _ _).mem hx2
        · injection h with h1
          injection h1 with h1 h2
          subst h1
          intro x hx
          have hx1 := (List.takeWhile_sublist _).mem hx
          exact (List.drop_sublist _ _).mem hx1
    · injection h with h1
      injection h1 with h1 h2
      subst h1
      intro x hx
      simp at hx

theorem parseValue_clean (line : List Char) (pos : Nat) (v : List Char) (p : Nat)
    (f : Bool) (hline : lineClean line = true)
    (h : parseValue line pos = .ok (v, p, f)) :
    cleanValue v = true ∧ v.contains '\n' = false := by
  simp only [lineClean, Bool.and_eq_true, Bool.not_eq_true'] at hline
  have hsub := parseValue_sub line pos v p f h
  have hnl : v.contains '\n' = false :=
    contains_false_of_forall_mem _ _ _ hsub hline.1
  have hcr : v.contains '\r' = false :=
    contains_false_of_forall_mem _ _ _ hsub hline.2
  exact ⟨cleanValue_of_no_nl_cr v hnl hcr, hnl⟩


theorem cleanNode_value (n : Node) (h : cleanNode n = true) :
    cleanValue n.value = true := by
  cases n with
  | mk nm v cs =>
    simp only [cleanNode, Bool.and_eq_true] at h
    exact h.1.2

theorem validName_takeWhile (s : List Char)
    (hne : (s.takeWhile isValidNameChar).length ≠ 0) :
    validName (s.takeWhile isValidNameChar) = true := by
  simp only [validName, Bool.and_eq_true, List.all_eq_true]
  constructor
  · cases hs : s.takeWhile isValidNameChar with
    | nil => rw [hs] at hne; simp at hne
    | cons a b => rfl
  · intro c hc
    exact List.mem_takeWhile_imp hc

theorem parseAttrs_clean (fuel : Nat) (line : List Char) (pos : Nat)
    (node node' : Node) (flag : Bool)
    (hline : lineClean line = true) (hnode : cleanNode node = true)
    (h : parseAttrs fuel line pos node = .ok (node', flag)) :
    cleanNode node' = true := by
  induction fuel generalizing pos node node' flag with
  | zero => simp only [parseAttrs] at h; cases h
  | succ fuel ih =>
    simp only [parseAttrs] at h
    split at h
    · injection h with h1
      injection h1 with h1 h2
      subst h1
      exact hnode
    · split at h
      · injection h with h1
        injection h1 with h1 h2
        subst h1
        exact hnode
      · split at h
        · injection h with h1
          injection h1 with h1 h2
          subst h1
          exact hnode
        · rename_i hlen
          split at h
          · cases h
          all_goals
            rename_i v pos3 fv heq
            have hv : cleanValue v = true := by
              split at heq
              · exact (parseValue_clean _ _ _ _ _ hline heq).1
              · injection heq with h3
                injection h3 with h3 h4
                subst h3
                rfl
            split at h
            · cases h
            all_goals
              rename_i node2 fv2 heq2
              injection h with h1
              injection h1 with h1 h2
              subst h1
              refine ih _ _ _ _ (cleanNode_addChild _ _ hnode ?_) heq2
              simp only [cleanNode, Bool.and_eq_true]
              exact ⟨⟨validName_takeWhile _ hlen, hv⟩, rfl⟩

theorem parseNode_children_clean (fuel : Nat) :
    (∀ (ls : List (List Char)) (pd : Int) (n : Node) (rest : List (List Char))
      (f : Bool), (∀ l ∈ ls, lineClean l = true) →
      parseNode fuel ls pd = .ok (n, rest, f) →
      cleanNode n = true ∧ ∀ l ∈ rest, l ∈ ls) ∧
    (∀ (ls : List (List Char)) (d : Nat) (node n : Node)
      (rest : List (List Char)) (f : Bool),
      (∀ l ∈ ls, lineClean l = true) → cleanNode node = true →
      parseChildren fuel ls d node = .ok (n, rest, f) →
      cleanNode n = true ∧ ∀ l ∈ rest, l ∈ ls) := by
  induction fuel with
  | zero =>
    constructor
    · intro ls pd n rest f hls h
      match ls with
      | [] => simp only [parseNode] at h; cases h
      | l :: rest0 => simp only [parseNode] at h; cases h
    · intro ls d node n rest f hls hnode h
      match ls with
      | [] =>
        simp only [parseChildren] at h
        injection h with h1
        injection h1 with h1 h2
        injection h2 with h2 h3
        subst h1
        subst h2
        exact ⟨hnode, by simp⟩
      | l :: rest0 => simp only [parseChildren] at h; cases h
  | succ fuel ih =>
    obtain ⟨ihN, ihC⟩ := ih
    constructor
    · intro ls pd n rest f hls h
      match ls with
      | [] => simp only [parseNode] at h; cases h
      | l :: rest0 =>
        have hl := hls l (List.mem_cons_self _ _)
        simp only [parseNode] at h
        split at h
        · cases h
        · split at h
          · cases h
          · rename_i hlen
            split at h
            · cases h
            all_goals
              rename_i value pos2 equ heq
              have hvalue : cleanValue value = true := by
                split at heq
                · exact (parseValue_clean _ _ _ _ _ hl heq).1
                · injection heq with h4
                  injection h4 with h4 h5
                  subst h4
                  rfl
              have hnode0 : cleanNode (Node.mk
                  ((l.drop (readDepth l)).takeWhile isValidNameChar) value []) = true := by
                simp only [cleanNode, Bool.and_eq_true]
                exact ⟨⟨validName_takeWhile _ (by simpa using hlen), hvalue⟩, rfl⟩
              split at h
              · cases h
              all_goals
                rename_i node1 au heq2
                have hnode1 : cleanNode node1 = true :=
                  parseAttrs_clean _ _ _ _ _ _ hl hnode0 heq2
                split at h
                · cases h
                all_goals
                  rename_i node2 rest2 cu heq3
                  injection h with h1
                  injection h1 with h1 h2
                  injection h2 with h2 h3
                  subst h1
                  subst h2
                  have hrec := ihC rest0 (readDepth l) node1 node2 rest2 _
                    (fun x hx => hls x (List.mem_cons_of_mem _ hx)) hnode1 heq3
                  exact ⟨hrec.1, fun x hx => List.mem_cons_of_mem _ (hrec.2 x hx)⟩
    · intro ls d node n rest f hls hnode h
      match ls with
      | [] =>
        simp only [parseChildren] at h
        injection h with h1
        injection h1 with h1 h2
        injection h2 with h2 h3
        subst h1
        subst h2
        exact ⟨hnode, by simp⟩
      | l :: rest0 =>
        have hl := hls l (List.mem_cons_self _ _)
        simp only [parseChildren] at h
        split at h
        · injection h with h1
          injection h1 with h1 h2
          injection h2 with h2 h3
          subst h1
          subst h2
          exact ⟨hnode, fun x hx => hx⟩
        · split at h
          · -- continuation line
            have hcont : ∀ x ∈ (if ((l.dropWhile
                  (fun c => c == ' ' || c == '\t')).tail).head? = some ' '
                then ((l.dropWhile (fun c => c == ' ' || c == '\t')).tail).tail
                else (l.dropWhile (fun c => c == ' ' || c == '\t')).tail), x ∈ l := by
              intro x hx
              have hx1 : x ∈ (l.dropWhile (fun c => c == ' ' || c == '\t')).tail := by
                split at hx
                · exact (List.tail_sublist _).mem hx
                · exact hx
              have hx2 := (List.tail_sublist _).mem hx1
              exact (List.dropWhile_sublist _).mem hx2
            have hlc : lineClean l = true := hl
            simp only [lineClean, Bool.and_eq_true, Bool.not_eq_true'] at hlc
            have hnode2 : cleanNode (node.withValue
                ((if node.value ≠ [] then node.value ++ ['\n'] else node.value) ++
                  (if ((l.dropWhile (fun c => c == ' ' || c == '\t')).tail).head? = some ' '
                   then ((l.dropWhile (fun c => c == ' ' || c == '\t')).tail).tail
                   else (l.dropWhile (fun c => c == ' ' || c == '\t')).tail))) = true := by
              refine cleanNode_withValue _ _ hnode ?_
              refine cleanValue_append_cont _ _ (cleanNode_value _ hnode) ?_ ?_
              · exact contains_false_of_forall_mem _ _ _ hcont hlc.1
              · exact contains_false_of_forall_mem _ _ _ hcont hlc.2
            have hrec := ihC rest0 d _ n rest f
              (fun x hx => hls x (List.mem_cons_of_mem _ hx)) hnode2 h
            exact ⟨hrec.1, fun x hx => List.mem_cons_of_mem _ (hrec.2 x hx)⟩
          · split at h
            · cases h
            all_goals
              rename_i child rest2 cu2 heq
              split at h
              · cases h
              all_goals
                rename_i node2 rest3 u2 heq2
                injection h with h1
                injection h1 with h1 h2
                injection h2 with h2 h3
                subst h1
                subst h2
                have hrec1 := ihN (l :: rest0) (d : Int) child rest2 _ hls heq
                have hrec2 := ihC rest2 d (node.addChild child) node2 rest3 _
                  (fun x hx => hls x (hrec1.2 x hx))
                  (cleanNode_addChild _ _ hnode hrec1.1) heq2
                exact ⟨hrec2.1, fun x hx => hrec1.2 x (hrec2.2 x hx)⟩

theorem parseTop_clean (fuel : Nat) (ls : List (List Char)) (ns : List Node)
    (f : Bool) (hls : ∀ l ∈ ls, lineClean l = true)
    (h : parseTop fuel ls = .ok (ns, f)) : cleanList ns = true := by
  induction fuel generalizing ls ns f with
  | zero =>
    match ls with
    | [] =>
      simp only [parseTop] at h
      injection h with h1
      injection h1 with h1 h2
      subst h1
      rfl
    | l :: rest0 => simp only [parseTop] at h; cases h
  | succ fuel ih =>
    match ls with
    | [] =>
      simp only [parseTop] at h
      injection h with h1
      injection h1 with h1 h2
      subst h1
      rfl
    | l :: rest0 =>
      simp only [parseTop] at h
      split at h
      · cases h
      all_goals
        rename_i nd rest2 u heq
        split at h
        · cases h
        all_goals
          rename_i ns2 u2 heq2
          injection h with h1
          injection h1 with h1 h2
          subst h1
          have hrec1 := (parseNode_children_clean fuel).1 (l :: rest0) (-1) nd
            rest2 _ hls heq
          have hrec2 := ih rest2 ns2 _ (fun x hx => hls x (hrec1.2 x hx)) heq2
          simp only [cleanList, Bool.and_eq_true]
          exact ⟨hrec1.1, hrec2⟩

theorem normalizeLines_clean (data : List Char) :
    ∀ l ∈ normalizeLines data, lineClean l = true := by
  intro l hl
  unfold normalizeLines at hl
  dsimp only at hl
  have hl2 := List.mem_of_mem_filter hl
  have hnl := splitOnChar_not_contains '\n' _ l hl2
  have hcr : l.contains '\r' = false := by
    rw [contains_false_iff]
    intro hmem
    have hmem2 := mem_of_mem_splitOnChar '\n' _ l hl2 '\r' hmem
    rcases List.mem_map.mp hmem2 with ⟨c, hc, hceq⟩
    by_cases hcc : (c == '\r') = true
    · rw [if_pos hcc] at hceq; cases hceq
    · rw [if_neg (by simpa using hcc)] at hceq
      subst hceq
      simp at hcc
  simp only [lineClean, Bool.and_eq_true, Bool.not_eq_true']
  exact ⟨hnl, hcr⟩

theorem ParseI_clean (data : List Char) (root : Node) (f : Bool)
    (h : ParseI data = .ok (root, f)) :
    ∃ cs, root = Node.mk [] [] cs ∧ cleanList cs = true := by
  unfold ParseI at h
  dsimp only at h
  split at h
  · injection h with h1
    injection h1 with h1 h2
    subst h1
    exact ⟨[], rfl, rfl⟩
  · split at h
    · cases h
    all_goals
      rename_i cs u heq
      injection h with h1
      injection h1 with h1 h2
      subst h1
      exact ⟨cs, rfl, parseTop_clean _ _ _ _ (normalizeLines_clean data) heq⟩


/-! ### Parsing the serialized lines back: line-level computations -/

theorem Node.eta (n : Node) : Node.mk n.name n.value n.children = n := by
  cases n
  rfl

theorem serLines_length_pos (n : Node) (d : Nat) : 1 ≤ (serLines n d).length := by
  cases n with
  | mk nm v cs => simp [serLines]

theorem takeWhile_append_of_all (p : Char → Bool) (a b : List Char)
    (h : ∀ c ∈ a, p c = true) :
    (a ++ b).takeWhile p = a ++ b.takeWhile p := by
  induction a with
  | nil => rfl
  | cons c a2 ih =>
    rw [List.cons_append, List.takeWhile_cons, h c (List.mem_cons_self _ _)]
    rw [ih (fun x hx => h x (List.mem_cons_of_mem _ hx))]
    rfl

theorem get?_append_add (A B : List Char) (i : Nat) :
    (A ++ B).get? (A.length + i) = B.get? i := by
  induction A with
  | nil => simp
  | cons c A2 ih =>
    have hidx : (c :: A2).length + i = (A2.length + i) + 1 := by
      simp only [List.length_cons]
      omega
    rw [hidx, List.cons_append, List.get?_cons_succ, ih]

theorem parseAttrs_at_end (fuel : Nat) (line : List Char) (pos : Nat) (node : Node)
    (h : line.length ≤ pos) :
    parseAttrs (fuel + 1) line pos node = .ok (node, false) := by
  simp only [parseAttrs]
  rw [List.drop_eq_nil_of_le h]
  rw [if_pos (by simpa using h)]

theorem parseValue_at_end (line : List Char) (pos : Nat) (h : line.length ≤ pos) :
    parseValue line pos = .ok ([], pos, false) := by
  unfold parseValue
  rw [if_pos (by omega)]

theorem parseValue_colon_serial (A v : List Char)
    (hk : commentScanLen v = v.length) (hr : rtrimSpaces v = v) :
    parseValue (A ++ ':' :: ' ' :: v) A.length =
      .ok (v, (A ++ ':' :: ' ' :: v).length, false) := by
  have hlen : (A ++ ':' :: ' ' :: v).length = A.length + (2 + v.length) := by
    simp only [List.length_append, List.length_cons]
    omega
  have hget : (A ++ ':' :: ' ' :: v).get? A.length = some ':' := by
    have h0 := get?_append_add A (':' :: ' ' :: v) 0
    simpa using h0
  have hget1 : (A ++ ':' :: ' ' :: v).get? (A.length + 1) = some ' ' := by
    have h1 := get?_append_add A (':' :: ' ' :: v) 1
    simpa using h1
  have hdrop : (A ++ ':' :: ' ' :: v).drop (A.length + 2) = v := by
    have hre : A ++ ':' :: ' ' :: v = (A ++ [':', ' ']) ++ v := by simp
    have h2 : (A ++ [':', ' ']).length = A.length + 2 := by simp
    rw [hre, ← h2, List.drop_left]
  unfold parseValue
  rw [if_neg (by rw [hlen]; omega)]
  split
  · rename_i heq
    rw [hget] at heq
    injection heq with heq
    dsimp only
    rw [if_pos hget1, hdrop, hk, List.take_length, hr, hlen]
    have harith : A.length + 1 + 1 + v.length = A.length + (2 + v.length) := by omega
    rw [harith]
  · rename_i heq
    rw [hget] at heq
    injection heq with heq
    cases heq
  · rename_i hne1 hne2
    exact absurd hget hne1


theorem withValue_self (n : Node) : n.withValue n.value = n := by
  cases n
  rfl

theorem value_withValue (n : Node) (v : List Char) : (n.withValue v).value = v := by
  cases n
  rfl

theorem withValue_withValue (n : Node) (a b : List Char) :
    (n.withValue a).withValue b = n.withValue b := by
  cases n
  rfl

theorem interChar_eq_nlJoin (p : List Char) (ps : List (List Char)) :
    interChar '\n' (p :: ps) = p ++ nlJoin ps := by
  induction ps generalizing p with
  | nil => simp [interChar, nlJoin]
  | cons q qs ih =>
    have hstep : interChar '\n' (p :: q :: qs) = p ++ '\n' :: interChar '\n' (q :: qs) := rfl
    rw [hstep, ih q]
    simp [nlJoin]

theorem contFold_ne_nil (ps : List (List Char)) (acc : List Char) (h : acc ≠ []) :
    contFold acc ps = acc ++ nlJoin ps := by
  induction ps generalizing acc with
  | nil => simp [contFold, nlJoin]
  | cons p qs ih =>
    have hstep : contFold acc (p :: qs) =
        contFold ((if acc ≠ [] then acc ++ ['\n'] else acc) ++ p) qs := rfl
    rw [hstep, if_pos h, ih _ (by simp)]
    simp [nlJoin]

theorem contFold_splitOnChar (v : List Char) (hv : v ≠ [])
    (hhead : v.head? ≠ some '\n') :
    contFold [] (splitOnChar '\n' v) = v := by
  cases v with
  | nil => exact absurd rfl hv
  | cons c rest =>
    have hc : ¬c = '\n' := by
      intro he
      subst he
      exact hhead rfl
    have h2 := interChar_splitOnChar '\n' (c :: rest)
    simp only [splitOnChar, if_neg hc] at h2 ⊢
    cases hsplit : splitOnChar '\n' rest with
    | nil => exact absurd hsplit (splitOnChar_ne_nil '\n' rest)
    | cons piece pieces =>
      rw [hsplit] at h2
      have h1 : contFold [] ((c :: piece) :: pieces) = contFold (c :: piece) pieces := by
        have hstep : contFold [] ((c :: piece) :: pieces) =
            contFold ((if ([] : List Char) ≠ [] then [] ++ ['\n'] else []) ++ (c :: piece))
              pieces := rfl
        rw [hstep]
        simp
      rw [h1, contFold_ne_nil _ _ (by simp)]
      rw [interChar_eq_nlJoin] at h2
      exact h2

theorem parse_pieces (pieces : List (List Char)) (fuel dep pd2 : Nat)
    (node : Node) (L2 : List (List Char)) (hdep : dep < pd2) :
    parseChildren (pieces.length + fuel)
        (pieces.map (fun p => indentSp pd2 ++ ':' :: ' ' :: p) ++ L2) dep node =
      parseChildren fuel L2 dep (node.withValue (contFold node.value pieces)) := by
  induction pieces generalizing node with
  | nil =>
    simp only [List.length_nil, Nat.zero_add, List.map_nil, List.nil_append, contFold,
      List.foldl_nil, withValue_self]
  | cons p ps ih =>
    have hlen : (p :: ps).length + fuel = (ps.length + fuel) + 1 := by
      simp only [List.length_cons]
      omega
    rw [hlen]
    simp only [List.map_cons, List.cons_append]
    simp only [parseChildren]
    have hrd : readDepth (indentSp pd2 ++ ':' :: ' ' :: p) = pd2 := by
      rw [readDepth_indent_append, readDepth_cons_nonws ':' _ (by decide)]
      omega
    rw [hrd, if_neg (by omega)]
    rw [dropWhile_ws_indent, dropWhile_ws_nonws ':' _ (by decide)]
    simp only [List.head?_cons, List.tail_cons, if_true]
    rw [ih]
    rw [withValue_withValue, value_withValue]
    have hfold : contFold node.value (p :: ps) =
        contFold ((if node.value ≠ [] then node.value ++ ['\n'] else node.value) ++ p) ps := rfl
    rw [hfold]


theorem readDepth_headline (nm tail : List Char) (m : Nat) (hnm : validName nm = true) :
    readDepth (indentSp m ++ nm ++ tail) = m := by
  obtain ⟨c0, r0, hnmeq, hc0⟩ := validName_head nm hnm
  rw [List.append_assoc, readDepth_indent_append, hnmeq, List.cons_append,
    readDepth_cons_nonws c0 _ (validChar_not_tabspace c0 hc0)]
  omega

theorem takeWhile_headline (nm tail : List Char) (hnm : validName nm = true)
    (htail : tail.takeWhile isValidNameChar = []) :
    (nm ++ tail).takeWhile isValidNameChar = nm := by
  rw [takeWhile_append_of_all _ _ _ (validName_mem nm hnm), htail, List.append_nil]

theorem takeWhile_colon (s : List Char) :
    (':' :: s).takeWhile isValidNameChar = [] := by
  rw [List.takeWhile_cons]
  simp [show isValidNameChar ':' = false from by decide]

theorem serLinesList_head_depth (cs : List Node) (d : Nat) (hc : cleanList cs = true) :
    ∀ l, (serLinesList cs d).head? = some l → readDepth l = d * 2 := by
  cases cs with
  | nil =>
    intro l hl
    simp [serLinesList] at hl
  | cons c tl =>
    intro l hl
    cases c with
    | mk nm v cs2 =>
      have hnm : validName nm = true := by
        simp only [cleanList, cleanNode, Bool.and_eq_true] at hc
        exact hc.1.1.1
      simp only [serLinesList, serLines, List.cons_append, List.head?_cons] at hl
      injection hl with hl
      subst hl
      exact readDepth_headline nm _ (d * 2) hnm

theorem readDepth_headline0 (nm : List Char) (m : Nat) (hnm : validName nm = true) :
    readDepth (indentSp m ++ nm) = m := by
  have h0 := readDepth_headline nm [] m hnm
  rwa [List.append_nil] at h0

theorem readDepth_headline2 (nm tail : List Char) (m : Nat) (hnm : validName nm = true) :
    readDepth (indentSp m ++ (nm ++ tail)) = m := by
  rw [← List.append_assoc]
  exact readDepth_headline nm tail m hnm

theorem parse_serLines_strong (fuel : Nat) :
    (∀ (n : Node) (d : Nat) (rest : List (List Char)) (pd : Int),
      cleanNode n = true → serialReady n = true →
      pd < ((d * 2 : Nat) : Int) →
      (∀ l, rest.head? = some l → readDepth l ≤ d * 2) →
      2 * (serLines n d).length ≤ fuel →
      parseNode fuel (serLines n d ++ rest) pd = .ok (n, rest, false)) ∧
    (∀ (cs : List Node) (d : Nat) (rest : List (List Char)) (dep : Nat) (node : Node),
      cleanList cs = true → serialReadyList cs = true →
      dep < d * 2 →
      (∀ l, rest.head? = some l → readDepth l ≤ dep) →
      2 * (serLinesList cs d).length + 1 ≤ fuel →
      parseChildren fuel (serLinesList cs d ++ rest) dep node =
        .ok (Node.mk node.name node.value (node.children ++ cs), rest, false)) := by
  induction fuel using Nat.strong_induction_on with
  | _ fuel ih =>
  constructor
  · intro n d rest pd hcn hsr hpd hrest hfuel
    cases n with
    | mk nm v cs =>
    have hparts : validName nm = true ∧ cleanValue v = true ∧ cleanList cs = true := by
      simpa [cleanNode, Bool.and_eq_true, and_assoc] using hcn
    have hsrp : (v.contains '\n' ||
        (commentScanLen v == v.length && rtrimSpaces v == v)) = true ∧
        serialReadyList cs = true := by
      simpa [serialReady, Bool.and_eq_true] using hsr
    obtain ⟨c0, r0, hnmeq, hc0⟩ := validName_head nm hparts.1
    have hnmlen : ¬nm.length = 0 := by
      rw [hnmeq]
      simp
    by_cases hsl : v ≠ [] ∧ ¬v.contains '\n' = true
    · have hvnl : v.contains '\n' = false := by
        cases hq : v.contains '\n'
        · rfl
        · exact absurd hq hsl.2
      have hks : commentScanLen v = v.length ∧ rtrimSpaces v = v := by
        have h1 := hsrp.1
        rw [hvnl] at h1
        simpa using h1
      simp only [serLines] at hfuel ⊢
      rw [if_pos hsl] at hfuel ⊢
      rw [if_neg (show ¬v.contains '\n' = true from fun h => by
        rw [h] at hvnl; cases hvnl)] at hfuel ⊢
      simp only [List.nil_append] at hfuel ⊢
      simp only [List.length_cons] at hfuel
      obtain ⟨f, rfl⟩ : ∃ f, fuel = f + 1 := ⟨fuel - 1, by omega⟩
      simp only [List.cons_append]
      simp only [parseNode]
      rw [readDepth_headline nm _ (d * 2) hparts.1]
      rw [if_neg (by omega)]
      have hdrop : ((indentSp (d * 2) ++ nm) ++ ':' :: ' ' :: v).drop (d * 2) =
          nm ++ ':' :: ' ' :: v := by
        rw [List.append_assoc]
        exact drop_indentSp _ _
      rw [hdrop]
      rw [takeWhile_headline nm _ hparts.1 (takeWhile_colon (' ' :: v))]
      rw [if_neg hnmlen]
      have hlinelen : ((indentSp (d * 2) ++ nm) ++ ':' :: ' ' :: v).length =
          d * 2 + nm.length + (2 + v.length) := by
        simp only [List.length_append, List.length_cons, indentSp, List.length_replicate]
        omega
      rw [if_pos (by rw [hlinelen]; omega)]
      have hA : (indentSp (d * 2) ++ nm).length = d * 2 + nm.length := by
        simp [indentSp]
      have hpv := parseValue_colon_serial (indentSp (d * 2) ++ nm) v hks.1 hks.2
      rw [hA] at hpv
      rw [hpv]
      dsimp only
      rw [parseAttrs_at_end ((indentSp (d * 2) ++ nm) ++ ':' :: ' ' :: v).length _ _ _
        (Nat.le_refl _)]
      dsimp only
      have hpc := (ih f (by omega)).2 cs (d + 1) rest (d * 2) (Node.mk nm v [])
        hparts.2.2 hsrp.2 (by omega) hrest (by omega)
      rw [hpc]
      simp
    · have hcase : v = [] ∨ v.contains '\n' = true := by
        by_cases hq : v.contains '\n' = true
        · exact Or.inr hq
        · left
          by_contra hne
          exact hsl ⟨hne, hq⟩
      have hA : (indentSp (d * 2) ++ nm).length = d * 2 + nm.length := by
        simp [indentSp]
      have htw : nm.takeWhile isValidNameChar = nm := by
        have h0 := takeWhile_headline nm [] hparts.1 rfl
        rwa [List.append_nil] at h0
      simp only [serLines, if_neg hsl, List.append_nil] at hfuel ⊢
      rcases hcase with hveq | hvnl
      · subst hveq
        simp only [show (([] : List Char).contains '\n') = false from rfl,
          Bool.false_eq_true, if_false, List.nil_append] at hfuel ⊢
        simp only [List.length_cons] at hfuel
        obtain ⟨f, rfl⟩ : ∃ f, fuel = f + 1 := ⟨fuel - 1, by omega⟩
        simp only [List.cons_append]
        simp only [parseNode]
        rw [readDepth_headline0 nm (d * 2) hparts.1]
        rw [if_neg (by omega)]
        rw [drop_indentSp]
        rw [htw, if_neg hnmlen]
        rw [if_neg (by rw [hA]; omega)]
        dsimp only
        rw [parseAttrs_at_end _ _ _ _ hA.le]
        dsimp only
        have hpc := (ih f (by omega)).2 cs (d + 1) rest (d * 2) (Node.mk nm [] [])
          hparts.2.2 hsrp.2 (by omega) hrest (by omega)
        rw [hpc]
        simp
      · rw [if_pos hvnl] at hfuel ⊢
        simp only [List.length_cons, List.length_append, List.length_map] at hfuel
        obtain ⟨f, rfl⟩ : ∃ f, fuel = f + 1 := ⟨fuel - 1, by omega⟩
        simp only [List.cons_append, List.append_assoc]
        simp only [parseNode]
        rw [readDepth_headline0 nm (d * 2) hparts.1]
        rw [if_neg (by omega)]
        rw [drop_indentSp]
        rw [htw, if_neg hnmlen]
        rw [if_neg (by rw [hA]; omega)]
        dsimp only
        rw [parseAttrs_at_end _ _ _ _ hA.le]
        dsimp only
        obtain ⟨f2, hf2⟩ : ∃ f2, f = (splitOnChar '\n' v).length + f2 :=
          ⟨f - (splitOnChar '\n' v).length, by omega⟩
        rw [hf2]
        rw [parse_pieces (splitOnChar '\n' v) f2 (d * 2) ((d + 1) * 2)
          (Node.mk nm [] []) _ (by omega)]
        have hvne : v ≠ [] := by
          intro he
          rw [he] at hvnl
          simp at hvnl
        have hhead : v.head? ≠ some '\n' := by
          have h0 := hparts.2.1
          simp only [cleanValue, Bool.and_eq_true, bne_iff_ne, ne_eq] at h0
          exact h0.2
        have hcf : (Node.mk nm ([] : List Char) ([] : List Node)).withValue
            (contFold (Node.mk nm ([] : List Char) ([] : List Node)).value
              (splitOnChar '\n' v)) = Node.mk nm v [] := by
          rw [show (Node.mk nm ([] : List Char) ([] : List Node)).value = [] from rfl]
          rw [contFold_splitOnChar v hvne hhead]
          rfl
        rw [hcf]
        have hpc := (ih f2 (by omega)).2 cs (d + 1) rest (d * 2) (Node.mk nm v [])
          hparts.2.2 hsrp.2 (by omega) hrest (by omega)
        rw [hpc]
        simp
  · intro cs d rest dep node hcl hsrl hdep hrest hfuel
    cases cs with
    | nil =>
      simp only [serLinesList, List.nil_append]
      cases rest with
      | nil =>
        have hpc : parseChildren fuel [] dep node = .ok (node, [], false) := by
          cases fuel <;> rfl
        rw [hpc]
        simp [Node.eta]
      | cons l r2 =>
        obtain ⟨f, rfl⟩ : ∃ f, fuel = f + 1 := ⟨fuel - 1, by omega⟩
        simp only [parseChildren]
        rw [if_pos (hrest l rfl)]
        simp [Node.eta]
    | cons c tl =>
      have hparts : cleanNode c = true ∧ cleanList tl = true := by
        simpa [cleanList, Bool.and_eq_true] using hcl
      have hsparts : serialReady c = true ∧ serialReadyList tl = true := by
        simpa [serialReadyList, Bool.and_eq_true] using hsrl
      cases c with
      | mk nm v cs2 =>
      have hnm : validName nm = true := by
        have h0 := hparts.1
        simp only [cleanNode, Bool.and_eq_true] at h0
        exact h0.1.1
      obtain ⟨c0, r0, hnmeq, hc0⟩ := validName_head nm hnm
      have hlen1 := serLines_length_pos (Node.mk nm v cs2) d
      simp only [serLinesList, List.length_append] at hfuel
      obtain ⟨f, rfl⟩ : ∃ f, fuel = f + 1 := ⟨fuel - 1, by omega⟩
      simp only [serLinesList, serLines, List.cons_append, List.append_assoc]
      simp only [parseChildren]
      rw [readDepth_headline2 nm _ (d * 2) hnm]
      rw [if_neg (by omega)]
      rw [dropWhile_ws_indent]
      rw [hnmeq, List.cons_append,
        dropWhile_ws_nonws c0 _ (by rw [Bool.or_comm]; exact validChar_not_tabspace c0 hc0)]
      rw [if_neg (by
        simp only [List.head?_cons, Option.some.injEq]
        exact validChar_ne c0 ':' hc0 (by decide))]
      have hrest2 : ∀ l, (serLinesList tl d ++ rest).head? = some l →
          readDepth l ≤ d * 2 := by
        intro l hl
        cases tl with
        | nil =>
          simp only [serLinesList, List.nil_append] at hl
          exact Nat.le_of_lt (Nat.lt_of_le_of_lt (hrest l hl) hdep)
        | cons c2 tl2 =>
          cases c2 with
          | mk nm2 v2 cs3 =>
            have hnm2 : validName nm2 = true := by
              have h0 := hparts.2
              simp only [cleanList, cleanNode, Bool.and_eq_true] at h0
              exact h0.1.1.1
            simp only [serLinesList, serLines, List.cons_append, List.head?_cons] at hl
            injection hl with hl
            subst hl
            rw [readDepth_headline nm2 _ (d * 2) hnm2]
      have hpn := (ih (f + 0) (by omega)).1 (Node.mk nm v cs2) d
        (serLinesList tl d ++ rest) (dep : Int) hparts.1 hsparts.1
        (by push_cast; omega) hrest2 (by omega)
      simp only [Nat.add_zero] at hpn
      simp only [serLines, List.cons_append, List.append_assoc] at hpn
      rw [hnmeq, List.cons_append] at hpn
      rw [hpn]
      dsimp only
      have hpc := (ih (f + 0) (by omega)).2 tl d rest dep
        (Node.mk (c0 :: r0) v cs2 |> node.addChild) hparts.2 hsparts.2 hdep hrest
        (by omega)
      simp only [Nat.add_zero] at hpc
      rw [hpc]
      simp only [Node.addChild]
      cases node with
      | mk a b cch =>
        simp [List.append_assoc]


theorem serLinesList_head_le (tl : List Node) (d : Nat) (hc : cleanList tl = true) :
    ∀ l, (serLinesList tl d).head? = some l → readDepth l ≤ d * 2 :=
  fun l hl => (serLinesList_head_depth tl d hc l hl).le

theorem parse_top_serLines (cs : List Node) (fuel : Nat)
    (hcl : cleanList cs = true) (hsrl : serialReadyList cs = true)
    (hfuel : 2 * (serLinesList cs 0).length + 1 ≤ fuel) :
    parseTop fuel (serLinesList cs 0) = .ok (cs, false) := by
  induction cs generalizing fuel with
  | nil => cases fuel <;> rfl
  | cons c tl ih =>
    have hparts : cleanNode c = true ∧ cleanList tl = true := by
      simpa [cleanList, Bool.and_eq_true] using hcl
    have hsparts : serialReady c = true ∧ serialReadyList tl = true := by
      simpa [serialReadyList, Bool.and_eq_true] using hsrl
    have hlen1 := serLines_length_pos c 0
    simp only [serLinesList, List.length_append] at hfuel
    obtain ⟨f, rfl⟩ : ∃ f, fuel = f + 1 := ⟨fuel - 1, by omega⟩
    have hpn := (parse_serLines_strong f).1 c 0 (serLinesList tl 0) (-1)
      hparts.1 hsparts.1 (by omega) (serLinesList_head_le tl 0 hparts.2) (by omega)
    cases c with
    | mk nm v cs2 =>
    simp only [serLinesList, serLines, List.cons_append]
    simp only [parseTop]
    simp only [serLines, List.cons_append] at hpn
    rw [hpn]
    dsimp only
    rw [ih f hparts.2 hsparts.2 (by omega)]
    simp

theorem Serialize_roundtrip (data : List Char) (root : Node)
    (h : ParseI data = .ok (root, false))
    (hsr : serialReadyList root.children = true) :
    ParseI (Serialize root) = .ok (root, false) := by
  obtain ⟨cs, hroot, hclean⟩ := ParseI_clean data root false h
  subst hroot
  rw [Serialize_eq_joinLines]
  rw [show (Node.mk [] [] cs).children = cs from rfl] at hsr ⊢
  cases cs with
  | nil => rfl
  | cons c tl =>
    unfold ParseI
    dsimp only
    rw [normalize_joinLines _ (serLinesList_good (c :: tl) 0 hclean)]
    have hne : serLinesList (c :: tl) 0 ≠ [] := by
      cases c with
      | mk nm v cs2 => simp [serLinesList, serLines]
    rw [if_neg hne]
    rw [parse_top_serLines (c :: tl) _ hclean hsr (by omega)]

/-- The round-trip property of claim C1 fails as stated: the document
`"Desc\n  : a//b"` parses successfully, its parse uses no inline
attribute and no `=`-syntax value, yet re-parsing its serialization does
not reproduce the tree — the value `"a//b"` was produced by a
continuation line, and on re-parse the colon-form value reader cuts it at
the inline-comment marker `//`. -/
theorem C1_roundtrip_counterexample :
    ParseI ['D', 'e', 's', 'c', '\n', ' ', ' ', ':', ' ', 'a', '/', '/', 'b'] =
      .ok (Node.mk [] [] [Node.mk ['D', 'e', 's', 'c'] ['a', '/', '/', 'b'] []], false) ∧
    Parse (Serialize (Node.mk [] [] [Node.mk ['D', 'e', 's', 'c'] ['a', '/', '/', 'b'] []])) ≠
      .ok (Node.mk [] [] [Node.mk ['D', 'e', 's', 'c'] ['a', '/', '/', 'b'] []]) := by
  constructor
  · decide
  · decide

/-- **C1** (corrected). For every input `D` that parses successfully with
no inline attribute and no `=`-syntax value, and whose parsed single-line
values survive the colon-form value reader (no inline `//` comment marker
cut and no trailing-space trim — multi-line values are exempt, they are
re-read verbatim through continuation lines), parsing the serialization
of the parse yields exactly the parse of `D`. The extra value condition
is necessary: `C1_roundtrip_counterexample` exhibits a document whose
continuation-line value embeds `//` and breaks the round trip. -/
theorem C1_roundtrip_amended (data : List Char) (root : Node)
    (h : ParseI data = .ok (root, false))
    (hsr : serialReadyList root.children = true) :
    Parse (Serialize root) = Parse data := by
  unfold Parse
  rw [h, Serialize_roundtrip data root h hsr]

/-- `C1_roundtrip_amended` at the concrete document
`"A: hello\nB\n  C: x\n    : more"`, whose parse contains a plain value,
an empty value, and a multi-line value assembled from a continuation
line. -/
theorem C1_roundtrip_amended_witness :
    ParseI "A: hello\nB\n  C: x\n    : more".toList =
      .ok (Node.mk [] [] [Node.mk ['A'] "hello".toList [],
        Node.mk ['B'] [] [Node.mk ['C'] "x\nmore".toList []]], false) ∧
    serialReadyList (Node.mk [] [] [Node.mk ['A'] "hello".toList [],
        Node.mk ['B'] [] [Node.mk ['C'] "x\nmore".toList []]]).children = true ∧
    Parse (Serialize (Node.mk [] [] [Node.mk ['A'] "hello".toList [],
        Node.mk ['B'] [] [Node.mk ['C'] "x\nmore".toList []]])) =
      Parse "A: hello\nB\n  C: x\n    : more".toList := by
  refine ⟨?_, ?_, ?_⟩
  · decide
  · decide
  · exact C1_roundtrip_amended _ _ (by decide) (by decide)

end BML
